import Mathlib

/-!
Verification of the sand-physics and connectivity engines of sandtris_rs.

The definitions in the first part of this file are a shallow embedding of
`src/physics.rs` and `src/pathfinding.rs`.  Machine integers are modelled by
`Nat`; fallible code (out-of-bounds indexing, which panics in Rust) is
modelled by `Option`, with `none` standing for a panic.  The pseudo-random
generator (`nanorand::WyRand`) is modelled abstractly as a stream of natural
numbers together with a position; every claim quantifies over all streams.
-/

namespace Sandtris

/-- Direction of a sand grain's move, from `src/constants.rs` (`enum Direction`). -/
inductive Direction
  | Left
  | Right
  | Down
deriving DecidableEq, Repr

/-- Abstract model of the `WyRand` random source: an arbitrary stream of
naturals and a current position.  Each `generate` call in the Rust code reads
one element and advances the position; the claims quantify over all streams. -/
structure Rng where
  stream : Nat → Nat
  pos : Nat

/-- Draw one raw value from the stream and advance. -/
def Rng.next (r : Rng) : Nat × Rng := (r.stream r.pos, ⟨r.stream, r.pos + 1⟩)

/-- Model of `rng.generate::<bool>()`: one draw, reduced to a boolean. -/
def Rng.genBool (r : Rng) : Bool × Rng :=
  let (n, r') := r.next
  (n % 2 == 0, r')

/-- Model of `rng.generate_range(0..32)`: one draw, reduced mod 32. -/
def Rng.genRange32 (r : Rng) : Nat × Rng :=
  let (n, r') := r.next
  (n % 32, r')

/-- A move request: primary direction plus optional fallback direction
(`(Direction, Option<Direction>)` in `src/physics.rs`). -/
abbrev Req := Direction × Option Direction

/-- A per-cell request slot (`Option<(Direction, Option<Direction>)>`). -/
abbrev OReq := Option Req

/-- `decide_direction` from `src/physics.rs` lines 104-131.  The three booleans
are the occupancy pattern `sand_under = [left, down, right]`.  The final match
arm mirrors the 32-slot `choices` array: slot 0 is `(Left, Some(Down))` when
the left side is free, slot 31 is `(Right, Some(Down))` when the right side is
free, and every other slot is `(Down, None)`. -/
def decide_direction (rng : Rng) (l d r : Bool) : OReq × Rng :=
  match l, d, r with
  | true, true, true => (none, rng)
  | false, true, true => (some (Direction.Left, none), rng)
  | true, false, true => (some (Direction.Down, none), rng)
  | true, true, false => (some (Direction.Right, none), rng)
  | false, true, false =>
      let (b, rng') := rng.genBool
      (some (if b then (Direction.Left, some Direction.Right)
             else (Direction.Right, some Direction.Left)), rng')
  | l, false, r =>
      let (n, rng') := rng.genRange32
      let choice : Req :=
        if n = 0 ∧ l = false then (Direction.Left, some Direction.Down)
        else if n = 31 ∧ r = false then (Direction.Right, some Direction.Down)
        else (Direction.Down, none)
      (some choice, rng')

/-- One column of the two-row view `ArrayView2<Option<T>>` passed to
`run_physics_line`: `(upper cell, lower cell)` = `(sand[[j,0]], sand[[j,1]])`. -/
abbrev Cell (α : Type) := Option α × Option α

/-- The occupancy triple built for column 0 (`src/physics.rs` lines 37-43):
`[true, sand[[1,1]], sand[[2,1]] || sand[[2,0]]]`, computed only when
`sand[[0,0]]` is occupied.  `none` models the out-of-bounds panic on views
narrower than 3 columns. -/
def firstTriple (sand : List (Cell α)) : Option (Option (Bool × Bool × Bool)) := do
  let c0 ← sand.get? 0
  if c0.1.isSome then
    let w1 ← sand.get? 1
    let w2 ← sand.get? 2
    pure (some (true, w1.2.isSome, w2.2.isSome || w2.1.isSome))
  else
    pure none

/-- The occupancy triple built for the last column (`src/physics.rs` lines
53-59): `[sand[[W-2,1]], sand[[W-1,1]], true]`, computed only when
`sand[[W-1,0]]` is occupied.  On a width-1 view the Rust index `W - 2`
underflows `usize` and panics, modelled by the `sand.length < 2` branch. -/
def lastTriple (sand : List (Cell α)) : Option (Option (Bool × Bool × Bool)) := do
  let cl ← sand.get? (sand.length - 1)
  if cl.1.isSome then
    if sand.length < 2 then none
    else do
      let a ← sand.get? (sand.length - 2)
      pure (some (a.2.isSome, cl.2.isSome, true))
  else
    pure none

/-- The request for the centre of one 3×2 window (`src/physics.rs` lines
44-52): occupancy triple `[w[[0,1]]||w[[0,0]], w[[1,1]], w[[2,1]]||w[[2,0]]]`
when the centre upper cell `w[[1,0]]` is occupied. -/
def mkMidReq (rng : Rng) (a b c : Cell α) : OReq × Rng :=
  if b.1.isSome then
    decide_direction rng (a.2.isSome || a.1.isSome) b.2.isSome (c.2.isSome || c.1.isSome)
  else (none, rng)

/-- The requests for all interior columns, in left-to-right window order
(`sand.windows([3, 2])`). -/
def midReqs (rng : Rng) : List (Cell α) → List OReq × Rng
  | a :: b :: c :: rest =>
      let (r, rng1) := mkMidReq rng a b c
      let (rs, rng2) := midReqs rng1 (b :: c :: rest)
      (r :: rs, rng2)
  | _ => ([], rng)

/-- Run `decide_direction` on an optional occupancy triple
(the `.map(|o| o.and_then(|s| decide_direction(rng, s)))` step). -/
def applyDecide (rng : Rng) : Option (Bool × Bool × Bool) → OReq × Rng
  | none => (none, rng)
  | some (l, d, r) => decide_direction rng l d r

/-- The initial request vector of `run_physics_line` (lines 37-61):
first column, interior windows, last column, with the random draws happening
in collection order. -/
def buildRequests (rng : Rng) (sand : List (Cell α)) : Option (List OReq × Rng) := do
  let ft ← firstTriple sand
  let lt ← lastTriple sand
  let (r0, rng1) := applyDecide rng ft
  let (rm, rng2) := midReqs rng1 sand
  let (rl, rng3) := applyDecide rng2 lt
  pure (r0 :: rm ++ [rl], rng3)

/-- `next.map(|next| (next, None))`: the fallback applied to a vetoed request. -/
def fire (next : Option Direction) : OReq := next.map (fun n => (n, none))

/-- One step of the adjacent-pair conflict sweep (`src/physics.rs` lines
70-82) at pair `(i-1, i)`. -/
def adjStep (st : List OReq × Bool) (i : Nat) : List OReq × Bool :=
  match st.1.get? (i - 1), st.1.get? i with
  | some (some (Direction.Right, next)), some (some (Direction.Down, _)) =>
      (st.1.set (i - 1) (fire next), true)
  | some (some (Direction.Down, _)), some (some (Direction.Left, next)) =>
      (st.1.set i (fire next), true)
  | _, _ => st

/-- The adjacent-pair sweep: pairs `(i-1, i)` for `i` in `1..len`. -/
def sweepAdj (reqs : List OReq) (changed : Bool) : List OReq × Bool :=
  (List.range' 1 (reqs.length - 1)).foldl adjStep (reqs, changed)

/-- One step of the two-apart conflict sweep (`src/physics.rs` lines 84-95) at
pair `(i-2, i)`: two diagonal requests converging on the middle cell are
resolved by a coin flip. -/
def twoStep (st : Rng × List OReq × Bool) (i : Nat) : Rng × List OReq × Bool :=
  let (rng, rs, ch) := st
  match rs.get? (i - 2), rs.get? i with
  | some (some (Direction.Right, lnext)), some (some (Direction.Left, rnext)) =>
      let (b, rng') := rng.genBool
      if b then (rng', rs.set (i - 2) (fire lnext), true)
      else (rng', rs.set i (fire rnext), true)
  | _, _ => (rng, rs, ch)

/-- The two-apart sweep: pairs `(i-2, i)` for `i` in `2..len`. -/
def sweepTwo (rng : Rng) (reqs : List OReq) (changed : Bool) : Rng × List OReq × Bool :=
  (List.range' 2 (reqs.length - 2)).foldl twoStep (rng, reqs, changed)

/-- One iteration of the `while changed` loop body: both sweeps, starting from
`changed = false`. -/
def resolvePass (rng : Rng) (reqs : List OReq) : Rng × List OReq × Bool :=
  let (reqs1, ch1) := sweepAdj reqs false
  sweepTwo rng reqs1 ch1

/-- The `while changed` conflict-resolution loop, with explicit fuel.  `none`
models non-termination within the given fuel; the termination theorem below
shows that the fuel used by `run_physics_line` always suffices, so the fueled
loop agrees with the unbounded Rust loop. -/
def resolveLoop : Nat → Rng → List OReq → Option (Rng × List OReq)
  | 0, _, _ => none
  | fuel + 1, rng, reqs =>
      let (rng', reqs', ch) := resolvePass rng reqs
      if ch then resolveLoop fuel rng' reqs' else some (rng', reqs')

/-- `run_physics_line` from `src/physics.rs` lines 30-102: build the request
vector, resolve conflicts to a fixed point, strip the fallback components. -/
def run_physics_line (rng : Rng) (sand : List (Cell α)) :
    Option (List (Option Direction) × Rng) := do
  let (reqs, rng1) ← buildRequests rng sand
  let (rng2, final) ← resolveLoop (reqs.length + 1) rng1 reqs
  pure (final.map (fun r => r.map Prod.fst), rng2)

/-- One row of the grid (fixed x-indexed row of `Option` cells). -/
abbrev Row (α : Type) := List (Option α)

/-- The destination index of a move from column `j`, with the bounds checks of
the ndarray indexing in `run_rng_physics` lines 15-25: `none` models the panic
on `j - 1` underflow or an out-of-range column. -/
def moveTarget (low : Row α) (j : Nat) : Direction → Option Nat
  | Direction.Left => if 1 ≤ j ∧ j - 1 < low.length then some (j - 1) else none
  | Direction.Right => if j + 1 < low.length then some (j + 1) else none
  | Direction.Down => if j < low.length then some j else none

/-- Apply the resolved moves of one row pair in left-to-right order
(`run_rng_physics` lines 10-26): `sand[[target, i]] = sand[[j, i-1]].take()`. -/
def apply_moves : List (Option Direction) → Nat → Row α → Row α → Option (Row α × Row α)
  | [], _, up, low => some (up, low)
  | none :: rest, j, up, low => apply_moves rest (j + 1) up low
  | some d :: rest, j, up, low =>
      match moveTarget low j d, up.get? j with
      | some t, some v => apply_moves rest (j + 1) (up.set j none) (low.set t v)
      | _, _ => none

/-- One row pair of the physics sweep: run the line physics on the two-row
view and apply the resulting moves. -/
def physicsStep (rng : Rng) (up low : Row α) : Option (Rng × Row α × Row α) := do
  let (dirs, rng1) ← run_physics_line rng (up.zip low)
  let r ← apply_moves dirs 0 up low
  pure (rng1, r.1, r.2)

/-- Process all row pairs strictly below `top` from the bottom up, then the
pair `(top, next)`; mirrors `for i in (1..sand.dim().1).rev()`. -/
def sweepPairs (rng : Rng) (top : Row α) : List (Row α) → Option (Rng × Row α × List (Row α))
  | [] => some (rng, top, [])
  | next :: rest => do
      let (rng1, next1, rest1) ← sweepPairs rng next rest
      let (rng2, top1, next2) ← physicsStep rng1 top next1
      pure (rng2, top1, next2 :: rest1)

/-- `run_rng_physics` from `src/physics.rs` lines 8-28: one physics tick over
the whole grid (a list of rows, top row first). -/
def run_rng_physics (rng : Rng) : List (Row α) → Option (Rng × List (Row α))
  | [] => some (rng, [])
  | top :: rest => do
      let (rng1, top1, rest1) ← sweepPairs rng top rest
      pure (rng1, top1 :: rest1)

/-- Number of occupied cells in one row. -/
def countRow (row : Row α) : Nat := row.countP (fun c => c.isSome)

/-- Number of occupied cells (grains) in the whole grid. -/
def countGrid (grid : List (Row α)) : Nat := (grid.map countRow).sum

/-! ## Connectivity engine, from `src/pathfinding.rs`

The grid is a list of rows (index `y`), each row a list of cells (index `x`),
so cell `(x, y)` of `Array2<Option<Color>>` (indexed `[[x, y]]`) is
`(grid.get? y).get? x`.  The cell payload is kept generic (`Color` in the
game is a four-element enum). -/

/-- Grid coordinate `(x, y)`. -/
abbrev Coord := Nat × Nat

/-- The cell at `(x, y)`, or `none` when the cell is empty or out of bounds
(`grid.get([x, y]).copied().flatten()`). -/
def gridAt (grid : List (Row α)) (x y : Nat) : Option α :=
  ((grid.get? y).bind (fun row => row.get? x)).join

/-- Whether `(x, y)` is a valid index of the grid. -/
def inBounds (grid : List (Row α)) (x y : Nat) : Bool :=
  match grid.get? y with
  | some row => decide (x < row.length)
  | none => false

/-- `test_node` from `src/pathfinding.rs` lines 73-79: the coordinate if the
cell holds exactly `color`, else nothing. -/
def test_node [DecidableEq α] (grid : List (Row α)) (x y : Nat) (color : α) : Option Coord :=
  (Option.filter (fun c => decide (c = color)) (gridAt grid x y)).map (fun _ => (x, y))

/-- `find_neighbors` from `src/pathfinding.rs` lines 56-71: the 4-neighbors of
`(x, y)` holding `color`, in the order left, up, right, down.  `x - 1` on
`x = 0` wraps around in Rust (`wrapping_sub`) to a huge index whose lookup
fails, modelled by the guards. -/
def find_neighbors [DecidableEq α] (grid : List (Row α)) (x y : Nat) (color : α) : List Coord :=
  ((if x = 0 then none else test_node grid (x - 1) y color) ::
   (if y = 0 then none else test_node grid x (y - 1) color) ::
   test_node grid (x + 1) y color ::
   test_node grid x (y + 1) color :: []).filterMap id

/-- The successor function used by both searches: the same-color 4-neighbors
when the cell is occupied, nothing when it is empty. -/
def sandSuccs [DecidableEq α] (grid : List (Row α)) (p : Coord) : List Coord :=
  match gridAt grid p.1 p.2 with
  | some color => find_neighbors grid p.1 p.2 color
  | none => []

/-- Insert a batch of successors at the back of the visit list, skipping the
ones already seen (the `FxIndexSet` insertion of the `pathfinding` crate). -/
def bfsInsert [DecidableEq γ] (seen : List γ) (qs : List γ) : List γ :=
  qs.foldl (fun s q => if q ∈ s then s else s ++ [q]) seen

/-- Modelled from the external `pathfinding` crate: the worklist loop of
`bfs_reach`.  `seen` is the insertion-ordered set of discovered nodes, `i` the
index of the next node to expand; the loop ends when every discovered node has
been expanded.  The fuel only bounds the number of expansions; the callers
below pass a fuel larger than the number of grid cells, which the lemmas show
is enough for the loop to reach its natural end. -/
def bfsGo [DecidableEq γ] (succs : γ → List γ) : Nat → List γ → Nat → List γ
  | 0, seen, _ => seen
  | fuel + 1, seen, i =>
      match seen[i]? with
      | none => seen
      | some p => bfsGo succs fuel (bfsInsert seen (succs p)) (i + 1)

/-- Modelled from the external `pathfinding` crate: `bfs_reach(start, succs)`
collected to a list.  Yields `start` first, then every node reachable through
`succs`, each exactly once, in breadth-first insertion order. -/
def bfsReach [DecidableEq γ] (succs : γ → List γ) (start : γ) (fuel : Nat) : List γ :=
  bfsGo succs fuel [start] 0

/-- Total number of cells of the grid (used only to size the search fuel). -/
def totalCells (grid : List (Row α)) : Nat := (grid.map List.length).sum

/-- `find_connected_sand` from `src/pathfinding.rs` lines 46-54: breadth-first
flood fill from `(x, y)` through same-color 4-neighbors.  The seed cell is
indexed without a bounds check in Rust (`grid[[*x, *y]]`), so an out-of-bounds
seed panics: modelled by `none`. -/
def find_connected_sand [DecidableEq α] (grid : List (Row α)) (x y : Nat) :
    Option (List Coord) :=
  if inBounds grid x y then some (bfsReach (sandSuccs grid) (x, y) (totalCells grid + 2))
  else none

/-- Height of the grid (`grid.dim().1`). -/
def gridHeight (grid : List (Row α)) : Nat := grid.length

/-- Width of the grid (`grid.dim().0`; rows of a well-formed grid all have
this length). -/
def gridWidth (grid : List (Row α)) : Nat := ((grid.head?).map List.length).getD 0

/-- Whether the same-color component of the occupied cell `(0, y)` reaches the
rightmost column. -/
def spansFrom [DecidableEq α] (grid : List (Row α)) (y : Nat) : Bool :=
  match gridAt grid 0 y with
  | none => false
  | some _ =>
      (bfsReach (sandSuccs grid) (0, y) (totalCells grid + 2)).any
        (fun p => decide (p.1 = gridWidth grid - 1))

/-- `find_spanning_group` from `src/pathfinding.rs` lines 14-44.  The A* search
of the external `pathfinding` crate is modelled by its contract: starting from
the virtual edge node whose successors are the occupied column-0 cells
`(0, y)` (`y` ascending), it returns some spanning component's entry cell
`path.0[1] = (0, y)` exactly when a same-color 4-connected path from column 0
to column `W - 1` exists, and `none` otherwise.  Which viable entry cell is
returned is implementation-defined (spec §9); the model picks the smallest
`y`.  Faithful for grids with at least one column or no rows (a 0-wide,
positive-height grid panics in Rust). -/
def find_spanning_group [DecidableEq α] (grid : List (Row α)) : Option Coord :=
  ((List.range grid.length).find? (fun y => spansFrom grid y)).map (fun y => ((0 : Nat), y))

/-! ## Auxiliary notions used by the claims -/

/-- `Color` from `src/constants.rs`: the four grain colors. -/
inductive Color
  | Red
  | Yellow
  | Blue
  | Green
deriving DecidableEq, Repr

/-- A constant random stream, used for concrete evaluations. -/
def streamConst (k : Nat) : Nat → Nat := fun _ => k

/-- The destination column (as an integer, so that the left edge is not
truncated) of a move from column `j` in direction `d`. -/
def destOf (j : Nat) : Direction → Int
  | Direction.Left => (j : Int) - 1
  | Direction.Right => (j : Int) + 1
  | Direction.Down => (j : Int)

/-- 4-adjacency of grid coordinates. -/
def adjacent4 (p q : Coord) : Prop :=
  (p.2 = q.2 ∧ (q.1 = p.1 + 1 ∨ p.1 = q.1 + 1)) ∨
  (p.1 = q.1 ∧ (q.2 = p.2 + 1 ∨ p.2 = q.2 + 1))

instance (p q : Coord) : Decidable (adjacent4 p q) := by
  unfold adjacent4; infer_instance

/-- One step of a same-color path: move to a 4-neighbor holding color `c`. -/
def colorStep (grid : List (Row α)) (c : α) (p q : Coord) : Prop :=
  adjacent4 p q ∧ gridAt grid q.1 q.2 = some c

/-- A same-color 4-connected path joins column 0 to the rightmost column. -/
def Spanning (grid : List (Row α)) : Prop :=
  ∃ (c : α) (y : Nat) (g : Coord), gridAt grid 0 y = some c ∧
    Relation.ReflTransGen (colorStep grid c) (0, y) g ∧ g.1 = gridWidth grid - 1

/-- A `W × H` grid with every cell empty. -/
def emptyGrid (α : Type) (W H : Nat) : List (Row α) :=
  List.replicate H (List.replicate W (none : Option α))

/-- All in-bounds coordinates of a grid. -/
def allCoords : List (Row α) → List Coord
  | [] => []
  | r :: g =>
      (List.range r.length).map (fun x => (x, 0)) ++
      (allCoords g).map (fun p => (p.1, p.2 + 1))

/-- Whether a direction is horizontal. -/
def dirHoriz : Direction → Bool
  | Direction.Left => true
  | Direction.Right => true
  | Direction.Down => false

/-- The termination measure of one request slot: one for a horizontal primary
direction plus one for a horizontal fallback.  Every conflict-resolution rule
application strictly decreases it at the vetoed slot. -/
def fWeight : OReq → Nat
  | none => 0
  | some (p, s) =>
      (if dirHoriz p then 1 else 0) +
      (match s with
       | some d => if dirHoriz d then 1 else 0
       | none => 0)

/-- The termination measure of a request vector. -/
def mWeight (rs : List OReq) : Nat := (rs.map fWeight).sum

/-- A request vector where every weight-2 slot (a coin-flip request) is
immediately followed by a weight-0 slot, and the last slot has weight at most
one.  The initial request vector always has this shape, which bounds its
total weight by its length. -/
def PairedL : List OReq → Prop
  | [] => True
  | [a] => fWeight a ≤ 1
  | a :: b :: t => (fWeight a = 2 → fWeight b = 0) ∧ PairedL (b :: t)

/-- Iterate the conflict-resolution pass `k` times. -/
def passIter : Nat → Rng → List OReq → Rng × List OReq
  | 0, rng, rs => (rng, rs)
  | k + 1, rng, rs =>
      let (rng1, rs1, _) := resolvePass rng rs
      passIter k rng1 rs1

/-- A request slot that mentions `Left` neither as primary nor as fallback
direction (the invariant of the column-0 slot). -/
def noLeftReq : OReq → Prop
  | none => True
  | some (p, s) => p ≠ Direction.Left ∧ s ≠ some Direction.Left

/-- A request slot that mentions `Right` neither as primary nor as fallback
direction (the invariant of the rightmost slot). -/
def noRightReq : OReq → Prop
  | none => True
  | some (p, s) => p ≠ Direction.Right ∧ s ≠ some Direction.Right

/-- No conflict pattern is present in a request vector: no adjacent
`(Right, Down)` pair, no adjacent `(Down, Left)` pair, no two-apart
`(Right, _, Left)` pair.  This is exactly the fixed point of the
`while changed` resolution loop. -/
def noConflicts (rs : List OReq) : Prop :=
  (∀ i next dd, 1 ≤ i →
      ¬(rs.get? (i - 1) = some (some (Direction.Right, next)) ∧
        rs.get? i = some (some (Direction.Down, dd)))) ∧
  (∀ i dd next, 1 ≤ i →
      ¬(rs.get? (i - 1) = some (some (Direction.Down, dd)) ∧
        rs.get? i = some (some (Direction.Left, next)))) ∧
  (∀ i ln rn, 2 ≤ i →
      ¬(rs.get? (i - 2) = some (some (Direction.Right, ln)) ∧
        rs.get? i = some (some (Direction.Left, rn))))

/-! ### Concrete inputs for the scenario claims and counterexamples -/

/-- 3-wide, 2-tall grid with grains at `(0,0)` and `(0,1)`. -/
def gridC1 : List (Row Nat) := [[some 0, none, none], [some 1, none, none]]

/-- Upper row of the 4-wide row pair refuting the decision-table claim. -/
def rowC3up : Row Nat := [some 0, some 1, none, none]

/-- Lower row of the 4-wide row pair refuting the decision-table claim. -/
def rowC3low : Row Nat := [none, some 2, some 3, none]

/-- 5-wide, 2-tall grid with a single grain at `(2,0)` and an empty row
below. -/
def gridC4 : List (Row Nat) :=
  [[none, none, some 7, none, none], [none, none, none, none, none]]

/-- The grid after one physics tick on `gridC4`, as a function of the single
random draw `n` consumed by the tick: the grain lands at `(1,1)` on draw 0,
at `(3,1)` on draw 31, and at `(2,1)` otherwise. -/
def gridC4after (n : Nat) : List (Row Nat) :=
  [[none, none, none, none, none],
   if n = 0 then [none, some 7, none, none, none]
   else if n = 31 then [none, none, none, some 7, none]
   else [none, none, some 7, none, none]]

/-- 5-wide, 1-tall grid whose five cells all hold the same color. -/
def gridC7 : List (Row Color) :=
  [[some Color.Red, some Color.Red, some Color.Red, some Color.Red, some Color.Red]]

/-- A full-width contiguous row whose colors differ across the middle. -/
def gridSplit : List (Row Color) :=
  [[some Color.Red, some Color.Red, some Color.Blue, some Color.Blue]]

/-- A 2-wide, 1-tall same-colored grid, used to witness the flood-fill
closure claim. -/
def gridC5w : List (Row Color) := [[some Color.Red, some Color.Red]]

/-- 5-wide row pair with grains in the upper corners, used to witness the
no-overlap claim. -/
def sandC2 : List (Cell Nat) :=
  [(some 0, none), (none, none), (none, none), (none, none), (some 1, none)]

/-- 3-wide, empty row pair, used to witness the termination claim. -/
def sandC8 : List (Cell Nat) :=
  [(none, none), (none, none), (none, none)]

/-! ## Theorems -/

/-! ### Properties of the breadth-first worklist loop -/

theorem bfsInsert_append [DecidableEq γ] (seen : List γ) (qs : List γ) :
    ∃ t, bfsInsert seen qs = seen ++ t := by
  induction qs generalizing seen with
  | nil => exact ⟨[], by simp [bfsInsert]⟩
  | cons q qs ih =>
      by_cases h : q ∈ seen
      · obtain ⟨t, ht⟩ := ih seen
        exact ⟨t, by simpa [bfsInsert, h] using ht⟩
      · obtain ⟨t, ht⟩ := ih (seen ++ [q])
        refine ⟨[q] ++ t, ?_⟩
        have : bfsInsert seen (q :: qs) = bfsInsert (seen ++ [q]) qs := by
          simp [bfsInsert, h]
        rw [this, ht, List.append_assoc]

theorem mem_bfsInsert_of_mem [DecidableEq γ] {seen : List γ} {p : γ} (qs : List γ)
    (h : p ∈ seen) : p ∈ bfsInsert seen qs := by
  obtain ⟨t, ht⟩ := bfsInsert_append seen qs
  rw [ht]
  exact List.mem_append_left _ h

theorem mem_bfsInsert_of_mem_arg [DecidableEq γ] {qs : List γ} {p : γ} (seen : List γ)
    (h : p ∈ qs) : p ∈ bfsInsert seen qs := by
  induction qs generalizing seen with
  | nil => cases h
  | cons q qs ih =>
      rcases List.mem_cons.mp h with rfl | h2
      · by_cases hq : p ∈ seen
        · have : bfsInsert seen (p :: qs) = bfsInsert seen qs := by simp [bfsInsert, hq]
          rw [this]; exact mem_bfsInsert_of_mem qs hq
        · have : bfsInsert seen (p :: qs) = bfsInsert (seen ++ [p]) qs := by
            simp [bfsInsert, hq]
          rw [this]
          exact mem_bfsInsert_of_mem qs (by simp)
      · by_cases hq : q ∈ seen
        · have : bfsInsert seen (q :: qs) = bfsInsert seen qs := by simp [bfsInsert, hq]
          rw [this]; exact ih _ h2
        · have : bfsInsert seen (q :: qs) = bfsInsert (seen ++ [q]) qs := by
            simp [bfsInsert, hq]
          rw [this]; exact ih _ h2

theorem mem_of_mem_bfsInsert [DecidableEq γ] {qs : List γ} {p : γ} {seen : List γ}
    (h : p ∈ bfsInsert seen qs) : p ∈ seen ∨ p ∈ qs := by
  induction qs generalizing seen with
  | nil => exact Or.inl (by simpa [bfsInsert] using h)
  | cons q qs ih =>
      by_cases hq : q ∈ seen
      · have heq : bfsInsert seen (q :: qs) = bfsInsert seen qs := by simp [bfsInsert, hq]
        rw [heq] at h
        rcases ih h with h1 | h1
        · exact Or.inl h1
        · exact Or.inr (List.mem_cons_of_mem _ h1)
      · have heq : bfsInsert seen (q :: qs) = bfsInsert (seen ++ [q]) qs := by
          simp [bfsInsert, hq]
        rw [heq] at h
        rcases ih h with h1 | h1
        · rcases List.mem_append.mp h1 with h2 | h2
          · exact Or.inl h2
          · have hpq : p = q := by simpa using h2
            exact Or.inr (by simp [hpq])
        · exact Or.inr (List.mem_cons_of_mem _ h1)

theorem nodup_bfsInsert [DecidableEq γ] {seen : List γ} (qs : List γ)
    (h : seen.Nodup) : (bfsInsert seen qs).Nodup := by
  induction qs generalizing seen with
  | nil => simpa [bfsInsert] using h
  | cons q qs ih =>
      by_cases hq : q ∈ seen
      · have heq : bfsInsert seen (q :: qs) = bfsInsert seen qs := by simp [bfsInsert, hq]
        rw [heq]; exact ih h
      · have heq : bfsInsert seen (q :: qs) = bfsInsert (seen ++ [q]) qs := by
          simp [bfsInsert, hq]
        rw [heq]
        refine ih ?_
        simp [List.nodup_append, h, hq]

theorem bfsGo_append [DecidableEq γ] (succs : γ → List γ) :
    ∀ (fuel : Nat) (seen : List γ) (i : Nat), ∃ t, bfsGo succs fuel seen i = seen ++ t := by
  intro fuel
  induction fuel with
  | zero => exact fun seen i => ⟨[], by simp [bfsGo]⟩
  | succ f ih =>
      intro seen i
      cases h : seen[i]? with
      | none => exact ⟨[], by simp [bfsGo, h]⟩
      | some p =>
          obtain ⟨t1, ht1⟩ := bfsInsert_append seen (succs p)
          obtain ⟨t2, ht2⟩ := ih (bfsInsert seen (succs p)) (i + 1)
          refine ⟨t1 ++ t2, ?_⟩
          simp only [bfsGo, h]
          rw [ht2, ht1, List.append_assoc]

theorem bfsGo_inv [DecidableEq γ] (succs : γ → List γ) (P : γ → Prop)
    (hP : ∀ p q, P p → q ∈ succs p → P q) :
    ∀ (fuel : Nat) (seen : List γ) (i : Nat), (∀ p ∈ seen, P p) →
      ∀ p ∈ bfsGo succs fuel seen i, P p := by
  intro fuel
  induction fuel with
  | zero => intro seen i hseen; simpa [bfsGo] using hseen
  | succ f ih =>
      intro seen i hseen
      cases h : seen[i]? with
      | none => simpa [bfsGo, h] using hseen
      | some p0 =>
          have hp0 : P p0 := hseen p0 (List.get?_mem (by rw [List.get?_eq_getElem?]; exact h))
          have hall : ∀ p ∈ bfsInsert seen (succs p0), P p := by
            intro p hp
            rcases mem_of_mem_bfsInsert hp with h1 | h1
            · exact hseen p h1
            · exact hP p0 p hp0 h1
          intro p hp
          refine ih (bfsInsert seen (succs p0)) (i + 1) hall p ?_
          simpa [bfsGo, h] using hp

theorem nodup_subset_length_le [DecidableEq γ] {l W : List γ} (hn : l.Nodup)
    (hs : ∀ p ∈ l, p ∈ W) : l.length ≤ W.length := by
  calc l.length = l.toFinset.card := (List.toFinset_card_of_nodup hn).symm
    _ ≤ W.toFinset.card := Finset.card_le_card (fun x hx => by
          rw [List.mem_toFinset] at hx ⊢; exact hs x hx)
    _ ≤ W.length := W.toFinset_card_le

theorem bfsGo_closure [DecidableEq γ] (succs : γ → List γ) (W : List γ)
    (hW : ∀ p q, q ∈ succs p → q ∈ W) :
    ∀ (fuel : Nat) (seen : List γ) (i : Nat),
      seen.Nodup → (∀ p ∈ seen, p ∈ W) →
      W.length + 1 ≤ fuel + i →
      (∀ j p, j < i → seen.get? j = some p → ∀ q ∈ succs p, q ∈ seen) →
      ∀ p ∈ bfsGo succs fuel seen i, ∀ q ∈ succs p, q ∈ bfsGo succs fuel seen i := by
  intro fuel
  induction fuel with
  | zero =>
      intro seen i hn hsub hfuel hcl
      simp only [bfsGo]
      intro p hp q hq
      obtain ⟨j, hjlt, hj⟩ := List.mem_iff_getElem.mp hp
      have hj : seen.get? j = some p := by
        rw [List.get?_eq_getElem?]
        exact List.getElem?_eq_some.mpr ⟨hjlt, hj⟩
      have : seen.length ≤ W.length := nodup_subset_length_le hn hsub
      exact hcl j p (by omega) hj q hq
  | succ f ih =>
      intro seen i hn hsub hfuel hcl
      cases h : seen[i]? with
      | none =>
          have hlen : seen.length ≤ i := List.getElem?_eq_none_iff.mp h
          simp only [bfsGo, h]
          intro p hp q hq
          obtain ⟨j, hjlt, hj⟩ := List.mem_iff_getElem.mp hp
          have hj : seen.get? j = some p := by
            rw [List.get?_eq_getElem?]
            exact List.getElem?_eq_some.mpr ⟨hjlt, hj⟩
          exact hcl j p (by omega) hj q hq
      | some p0 =>
          have hilt : i < seen.length := (List.getElem?_eq_some.mp h).1
          obtain ⟨t1, ht1⟩ := bfsInsert_append seen (succs p0)
          have step : bfsGo succs (f + 1) seen i =
              bfsGo succs f (bfsInsert seen (succs p0)) (i + 1) := by
            simp [bfsGo, h]
          rw [step]
          refine ih (bfsInsert seen (succs p0)) (i + 1) (nodup_bfsInsert _ hn) ?_ (by omega) ?_
          · intro p hp
            rcases mem_of_mem_bfsInsert hp with h1 | h1
            · exact hsub p h1
            · exact hW p0 p h1
          · intro j p hj hget q hq
            have hget' : seen.get? j = some p := by
              have hjseen : j < seen.length := by omega
              rw [ht1] at hget
              rw [List.get?_eq_getElem?] at hget ⊢
              rwa [List.getElem?_append_left hjseen] at hget
            rcases Nat.lt_or_ge j i with hji | hji
            · exact mem_bfsInsert_of_mem _ (hcl j p hji hget' q hq)
            · have hj_eq : j = i := by omega
              have : p = p0 := by
                rw [hj_eq, List.get?_eq_getElem?] at hget'
                exact Option.some.inj (hget'.symm.trans h)
              subst this
              exact mem_bfsInsert_of_mem_arg _ hq

/-! ### Grid and neighbor lemmas -/

theorem allCoords_length (grid : List (Row α)) :
    (allCoords grid).length = totalCells grid := by
  induction grid with
  | nil => simp [allCoords, totalCells]
  | cons r g ih => simp [allCoords, totalCells, ih]

theorem mem_allCoords_of_lt :
    ∀ {grid : List (Row α)} {x y : Nat} {row : Row α},
      grid.get? y = some row → x < row.length → (x, y) ∈ allCoords grid := by
  intro grid
  induction grid with
  | nil => intro x y row h; simp at h
  | cons r g ih =>
      intro x y row h hx
      cases y with
      | zero =>
          simp only [List.get?] at h
          cases h
          refine List.mem_append_left _ ?_
          exact List.mem_map.mpr ⟨x, List.mem_range.mpr hx, rfl⟩
      | succ y0 =>
          simp only [List.get?] at h
          refine List.mem_append_right _ ?_
          exact List.mem_map.mpr ⟨(x, y0), ih h hx, rfl⟩

theorem gridAt_eq_some {grid : List (Row α)} {x y : Nat} {c : α} :
    gridAt grid x y = some c ↔
      ∃ row, grid.get? y = some row ∧ row.get? x = some (some c) := by
  simp [gridAt, Option.join_eq_some, Option.bind_eq_some]

theorem mem_allCoords_of_gridAt {grid : List (Row α)} {x y : Nat} {c : α}
    (h : gridAt grid x y = some c) : (x, y) ∈ allCoords grid := by
  obtain ⟨row, hrow, hcell⟩ := gridAt_eq_some.mp h
  refine mem_allCoords_of_lt hrow ?_
  rw [List.get?_eq_getElem?] at hcell
  exact (List.getElem?_eq_some.mp hcell).1

theorem inBounds_iff {grid : List (Row α)} {x y : Nat} :
    inBounds grid x y = true ↔ ∃ row, grid.get? y = some row ∧ x < row.length := by
  unfold inBounds
  cases h : grid.get? y <;> simp [h]

theorem test_node_eq_some [DecidableEq α] {grid : List (Row α)} {x y : Nat} {c : α}
    {q : Coord} :
    test_node grid x y c = some q ↔ gridAt grid x y = some c ∧ q = (x, y) := by
  unfold test_node
  cases h : gridAt grid x y with
  | none => simp [Option.filter, h]
  | some v =>
      by_cases hv : v = c
      · subst hv; simp [Option.filter, h, eq_comm]
      · simp [Option.filter, h, hv]

theorem mem_find_neighbors [DecidableEq α] {grid : List (Row α)} {x y : Nat} {c : α}
    {q : Coord} :
    q ∈ find_neighbors grid x y c ↔
      gridAt grid q.1 q.2 = some c ∧ adjacent4 (x, y) q := by
  obtain ⟨qx, qy⟩ := q
  constructor
  · intro hq
    simp only [find_neighbors, List.mem_filterMap, List.mem_cons, List.mem_singleton,
      id_eq, List.not_mem_nil, or_false] at hq
    obtain ⟨o, ho, hoq⟩ := hq
    subst hoq
    rcases ho with h1 | h1 | h1 | h1
    · by_cases hx : x = 0
      · rw [if_pos hx] at h1; cases h1
      · rw [if_neg hx] at h1
        obtain ⟨hc, hq⟩ := test_node_eq_some.mp h1.symm
        cases hq
        exact ⟨hc, Or.inl ⟨rfl, Or.inr (by omega)⟩⟩
    · by_cases hy : y = 0
      · rw [if_pos hy] at h1; cases h1
      · rw [if_neg hy] at h1
        obtain ⟨hc, hq⟩ := test_node_eq_some.mp h1.symm
        cases hq
        exact ⟨hc, Or.inr ⟨rfl, Or.inr (by omega)⟩⟩
    · obtain ⟨hc, hq⟩ := test_node_eq_some.mp h1.symm
      cases hq
      exact ⟨hc, Or.inl ⟨rfl, Or.inl rfl⟩⟩
    · obtain ⟨hc, hq⟩ := test_node_eq_some.mp h1.symm
      cases hq
      exact ⟨hc, Or.inr ⟨rfl, Or.inl rfl⟩⟩
  · rintro ⟨hc, hadj⟩
    simp only [find_neighbors, List.mem_filterMap, List.mem_cons, List.mem_singleton,
      id_eq, List.not_mem_nil, or_false]
    refine ⟨some (qx, qy), ?_, rfl⟩
    rcases hadj with ⟨hy2, hx2 | hx2⟩ | ⟨hx2, hy2 | hy2⟩
    · refine Or.inr (Or.inr (Or.inl ?_))
      simp only at hy2 hx2
      subst hy2
      rw [hx2]
      exact (test_node_eq_some.mpr ⟨by rwa [← hx2], rfl⟩).symm
    · refine Or.inl ?_
      simp only at hy2 hx2
      subst hy2
      rw [if_neg (by omega : ¬ x = 0)]
      have hx1 : x - 1 = qx := by omega
      rw [← hx1] at hc ⊢
      exact (test_node_eq_some.mpr ⟨hc, rfl⟩).symm
    · refine Or.inr (Or.inr (Or.inr ?_))
      simp only at hy2 hx2
      subst hx2
      rw [hy2]
      exact (test_node_eq_some.mpr ⟨by rwa [← hy2], rfl⟩).symm
    · refine Or.inr (Or.inl ?_)
      simp only at hy2 hx2
      subst hx2
      rw [if_neg (by omega : ¬ y = 0)]
      have hy1 : y - 1 = qy := by omega
      rw [← hy1] at hc ⊢
      exact (test_node_eq_some.mpr ⟨hc, rfl⟩).symm

theorem mem_sandSuccs [DecidableEq α] {grid : List (Row α)} {p q : Coord} :
    q ∈ sandSuccs grid p ↔
      ∃ c, gridAt grid p.1 p.2 = some c ∧ gridAt grid q.1 q.2 = some c ∧
        adjacent4 p q := by
  unfold sandSuccs
  cases h : gridAt grid p.1 p.2 <;> simp [h, mem_find_neighbors]

/-- C10: for every in-bounds seed, `find_connected_sand` succeeds, its result
starts with the seed, and an empty seed yields the singleton list containing
only the seed. -/
theorem C10_seed_first (α : Type) [DecidableEq α] (grid : List (Row α)) (x y : Nat)
    (h : inBounds grid x y = true) :
    ∃ res, find_connected_sand grid x y = some res ∧ res.head? = some (x, y) ∧
      (gridAt grid x y = none → res = [(x, y)]) := by
  refine ⟨bfsReach (sandSuccs grid) (x, y) (totalCells grid + 2), ?_, ?_, ?_⟩
  · simp [find_connected_sand, h]
  · obtain ⟨t, ht⟩ := bfsGo_append (sandSuccs grid) (totalCells grid + 2) [(x, y)] 0
    rw [bfsReach, ht]
    rfl
  · intro hempty
    have hsuccs : sandSuccs grid (x, y) = [] := by simp [sandSuccs, hempty]
    show bfsGo (sandSuccs grid) (totalCells grid + 2) [(x, y)] 0 = [(x, y)]
    rw [show totalCells grid + 2 = (totalCells grid + 1) + 1 from rfl]
    simp [bfsGo, hsuccs, bfsInsert]

/-- Closed witness for C10 at a concrete input: a 1×1 grid with an empty
cell. -/
theorem C10_seed_first_witness :
    inBounds [[(none : Option Color)]] 0 0 = true ∧
    ∃ res, find_connected_sand [[(none : Option Color)]] 0 0 = some res ∧
      res.head? = some (0, 0) ∧
      (gridAt [[(none : Option Color)]] 0 0 = none → res = [(0, 0)]) :=
  ⟨rfl, C10_seed_first Color [[(none : Option Color)]] 0 0 rfl⟩

/-- C5: flood-fill closure.  Whenever `find_connected_sand` succeeds, every
returned cell holds exactly the seed's cell value, and for an occupied seed
the result is closed under same-color 4-neighbors. -/
theorem C5_flood_fill_closure (α : Type) [DecidableEq α] (grid : List (Row α))
    (x y : Nat) (res : List Coord) (h : find_connected_sand grid x y = some res) :
    (∀ p ∈ res, gridAt grid p.1 p.2 = gridAt grid x y) ∧
    (∀ c, gridAt grid x y = some c →
      ∀ p ∈ res, ∀ q : Coord, adjacent4 p q → gridAt grid q.1 q.2 = some c →
        q ∈ res) := by
  have hb : inBounds grid x y = true := by
    by_contra hb
    simp [find_connected_sand, hb] at h
  have hres : res = bfsReach (sandSuccs grid) (x, y) (totalCells grid + 2) := by
    rw [find_connected_sand, if_pos hb] at h
    exact (Option.some.inj h).symm
  subst hres
  have hval : ∀ p ∈ bfsReach (sandSuccs grid) (x, y) (totalCells grid + 2),
      gridAt grid p.1 p.2 = gridAt grid x y := by
    refine bfsGo_inv (sandSuccs grid)
      (fun p => gridAt grid p.1 p.2 = gridAt grid x y) ?_ _ _ _ ?_
    · intro p q hp hq
      obtain ⟨c, hc1, hc2, _⟩ := mem_sandSuccs.mp hq
      exact hc2.trans (hc1.symm.trans hp)
    · intro p hp
      have : p = (x, y) := by simpa using hp
      rw [this]
  refine ⟨hval, ?_⟩
  intro c hc p hp q hadj hqc
  have hpc : gridAt grid p.1 p.2 = some c := (hval p hp).trans hc
  have hq_succ : q ∈ sandSuccs grid p := mem_sandSuccs.mpr ⟨c, hpc, hqc, hadj⟩
  refine bfsGo_closure (sandSuccs grid) ((x, y) :: allCoords grid) ?_
    (totalCells grid + 2) [(x, y)] 0 (by simp) ?_ ?_ ?_ p hp q hq_succ
  · intro a b hb2
    obtain ⟨c2, _, hb3, _⟩ := mem_sandSuccs.mp hb2
    exact List.mem_cons_of_mem _ (mem_allCoords_of_gridAt hb3)
  · intro a ha
    have : a = (x, y) := by simpa using ha
    rw [this]
    exact List.mem_cons_self _ _
  · rw [List.length_cons, allCoords_length]
  · intro j a hj
    omega

/-- Closed witness for C5 at a concrete input: a 2-wide same-colored row,
where the right neighbor of the seed must be in the flood fill. -/
theorem gridAt_emptyGrid (α : Type) (W H x y : Nat) :
    gridAt (emptyGrid α W H) x y = none := by
  unfold gridAt emptyGrid
  by_cases hy : y < H
  · rw [List.get?_eq_getElem?, List.getElem?_replicate, if_pos hy]
    by_cases hx : x < W
    · simp [List.get?_eq_getElem?, List.getElem?_replicate, hx]
    · simp [List.get?_eq_getElem?, List.getElem?_replicate, hx]
  · rw [List.get?_eq_getElem?, List.getElem?_replicate, if_neg hy]
    rfl

/-- C6: `find_spanning_group` returns `none` whenever no same-colored
4-connected path joins column 0 to column `W-1`: in general (first
conjunct), on every entirely empty grid (second conjunct), and on an
otherwise contiguous full-width row whose colors differ across the middle
(third conjunct). -/
theorem C6_no_spanning_none :
    (∀ (α : Type) [DecidableEq α] (grid : List (Row α)),
        ¬ Spanning grid → find_spanning_group grid = none) ∧
    (∀ (α : Type) [DecidableEq α] (W H : Nat),
        find_spanning_group (emptyGrid α W H) = none) ∧
    find_spanning_group gridSplit = none := by
  have main : ∀ (α : Type) [DecidableEq α] (grid : List (Row α)),
      ¬ Spanning grid → find_spanning_group grid = none := by
    intro α instα grid hns
    cases h : find_spanning_group grid with
    | none => rfl
    | some p =>
        exfalso
        apply hns
        unfold find_spanning_group at h
        obtain ⟨y, hy⟩ : ∃ y, (List.range grid.length).find? (fun y => spansFrom grid y) =
            some y := by
          cases hf : (List.range grid.length).find? (fun y => spansFrom grid y) with
          | none => rw [hf] at h; cases h
          | some y0 => exact ⟨y0, rfl⟩
        have hspan : spansFrom grid y = true := List.find?_some hy
        cases hg : gridAt grid 0 y with
        | none => rw [spansFrom, hg] at hspan; cases hspan
        | some c =>
            rw [spansFrom, hg] at hspan
            obtain ⟨g, hgmem, hgoal⟩ := List.any_eq_true.mp hspan
            have hreach : ∀ p ∈ bfsReach (sandSuccs grid) (0, y) (totalCells grid + 2),
                gridAt grid p.1 p.2 = some c ∧
                  Relation.ReflTransGen (colorStep grid c) (0, y) p := by
              refine bfsGo_inv (sandSuccs grid)
                (fun p => gridAt grid p.1 p.2 = some c ∧
                  Relation.ReflTransGen (colorStep grid c) (0, y) p) ?_ _ _ _ ?_
              · rintro p q ⟨hpc, hpr⟩ hq
                obtain ⟨c2, hc2p, hc2q, hadj⟩ := mem_sandSuccs.mp hq
                have hcc : c2 = c := by
                  have := hpc.symm.trans hc2p
                  exact (Option.some.inj this).symm
                subst hcc
                exact ⟨hc2q, hpr.tail ⟨hadj, hc2q⟩⟩
              · intro p hp
                have : p = (0, y) := by simpa using hp
                rw [this]
                exact ⟨hg, Relation.ReflTransGen.refl⟩
            obtain ⟨hgc, hgr⟩ := hreach g hgmem
            exact ⟨c, y, g, hg, hgr, of_decide_eq_true hgoal⟩
  refine ⟨main, ?_, by rfl⟩
  intro α instα W H
  cases h : find_spanning_group (emptyGrid α W H) with
  | none => rfl
  | some p =>
      exfalso
      unfold find_spanning_group at h
      cases hf : (List.range (emptyGrid α W H).length).find?
          (fun y => spansFrom (emptyGrid α W H) y) with
      | none => rw [hf] at h; cases h
      | some y0 =>
          have hspan : spansFrom (emptyGrid α W H) y0 = true := List.find?_some hf
          rw [spansFrom, gridAt_emptyGrid] at hspan
          cases hspan

/-- Closed witness for C6 at a concrete input: the grid with no rows has no
spanning path, and `find_spanning_group` returns `none` on it. -/
theorem C6_no_spanning_none_witness :
    ¬ Spanning ([] : List (Row Color)) ∧
    find_spanning_group ([] : List (Row Color)) = none := by
  have hns : ¬ Spanning ([] : List (Row Color)) := by
    rintro ⟨c, y, g, hc, -, -⟩
    simp [gridAt] at hc
  exact ⟨hns, C6_no_spanning_none.1 Color [] hns⟩

theorem C5_flood_fill_closure_witness :
    find_connected_sand gridC5w 0 0 = some [(0, 0), (1, 0)] ∧
    ((1, 0) : Coord) ∈ ([(0, 0), (1, 0)] : List Coord) :=
  ⟨rfl,
    (C5_flood_fill_closure Color gridC5w 0 0 [(0, 0), (1, 0)] (by rfl)).2
      Color.Red rfl (0, 0) (by simp) (1, 0) (by decide) rfl⟩

/-- C1: grain conservation fails on the code.  On a 3-wide, 2-tall grid with
grains at `(0,0)` and `(0,1)`, one physics tick destroys the grain at
`(0,1)`: the occupancy triple built for column 0 reads the cells of columns 1
and 2 instead of columns 0 and 1, so the grain at `(0,0)` believes the cell
below it is free, moves down, and overwrites the grain at `(0,1)`.  The cell
count drops from 2 to 1. -/
theorem C1_physics_destroys_grain :
    countGrid gridC1 = 2 ∧
    (run_rng_physics ⟨streamConst 0, 0⟩ gridC1).map (fun p => (countGrid p.2, p.2)) =
      some (1, [[none, none, none], [some 0, none, none]]) :=
  ⟨rfl, rfl⟩

/-- C3, counterexample: the per-cell decision is not "no move iff below,
below-left and below-right are occupied".  In the 4-wide row pair with upper
row `[grain, grain, _, _]` and lower row `[_, grain, grain, _]`, the occupied
cell in column 1 has its below-left cell `(0, lower)` empty, so the claim
demands a `Left` move, yet the decision stage returns "no move" (the code
also counts the occupied upper-row neighbor at column 0 as blocking the left
diagonal). -/
theorem C3_counterexample :
    (buildRequests ⟨streamConst 0, 0⟩ (rowC3up.zip rowC3low)).map (fun p => p.1.get? 1) =
      some (some none) ∧
    rowC3up.get? 1 = some (some 1) ∧ rowC3low.get? 0 = some none :=
  ⟨rfl, rfl, rfl⟩

/-- C4, counterexample: the single-grain tick is neither deterministic nor
randomness-free.  With the all-zero random stream, the lone grain at `(2,0)`
of a 5-wide board draws slot 0 of the 32-slot choice array and moves
diagonally to `(1,1)`, not to `(2,1)`, and the stream position advances from
0 to 1. -/
theorem C4_counterexample :
    (run_rng_physics ⟨streamConst 0, 0⟩ gridC4).map (fun p => (p.1.pos, p.2)) =
      some (1, [[none, none, none, none, none], [none, some 7, none, none, none]]) :=
  rfl

/-- C7: on the 5-wide, 1-tall board whose cells all hold the same color,
`find_spanning_group` returns the leftmost cell `(0,0)` and
`find_connected_sand` seeded at `(0,0)` returns exactly the five
coordinates. -/
theorem C7_full_row_scenario :
    find_spanning_group gridC7 = some (0, 0) ∧
    find_connected_sand gridC7 0 0 = some [(0, 0), (1, 0), (2, 0), (3, 0), (4, 0)] :=
  ⟨rfl, rfl⟩

/-- C9, counterexample: `run_physics_line` is not total for every board
width.  On a width-1 row pair whose single upper cell is occupied, the Rust
code indexes `sand[[1, 1]]` (and computes `width - 2`, underflowing `usize`),
which panics; the embedding returns `none`. -/
theorem C9_counterexample :
    run_physics_line ⟨streamConst 0, 0⟩ [((some 0 : Option Nat), (none : Option Nat))] =
      none :=
  rfl


/-! ### The conflict-resolution sweeps: case analysis of one step -/

theorem adjStep_cases (rs : List OReq) (ch : Bool) (i : Nat) :
    adjStep (rs, ch) i = (rs, ch) ∨
    ∃ (k : Nat) (d : Direction) (next : Option Direction),
      (d = Direction.Right ∨ d = Direction.Left) ∧
      rs.get? k = some (some (d, next)) ∧
      adjStep (rs, ch) i = (rs.set k (fire next), true) := by
  unfold adjStep
  dsimp only
  cases h1 : rs.get? (i - 1) with
  | none => exact Or.inl rfl
  | some o1 =>
    cases o1 with
    | none => exact Or.inl rfl
    | some r1 =>
      obtain ⟨d1, s1⟩ := r1
      cases h2 : rs.get? i with
      | none => cases d1 <;> exact Or.inl rfl
      | some o2 =>
        cases o2 with
        | none => cases d1 <;> exact Or.inl rfl
        | some r2 =>
          obtain ⟨d2, s2⟩ := r2
          cases d1 <;> cases d2 <;>
            first
              | exact Or.inl rfl
              | exact Or.inr ⟨i - 1, Direction.Right, s1, Or.inl rfl, h1, rfl⟩
              | exact Or.inr ⟨i, Direction.Left, s2, Or.inr rfl, h2, rfl⟩

theorem twoStep_cases (rng : Rng) (rs : List OReq) (ch : Bool) (i : Nat) :
    twoStep (rng, rs, ch) i = (rng, rs, ch) ∨
    ∃ (k : Nat) (d : Direction) (next : Option Direction) (rng2 : Rng),
      (d = Direction.Right ∨ d = Direction.Left) ∧
      rs.get? k = some (some (d, next)) ∧
      twoStep (rng, rs, ch) i = (rng2, rs.set k (fire next), true) := by
  unfold twoStep
  dsimp only
  cases h1 : rs.get? (i - 2) with
  | none => exact Or.inl rfl
  | some o1 =>
    cases o1 with
    | none => exact Or.inl rfl
    | some r1 =>
      obtain ⟨d1, s1⟩ := r1
      cases h2 : rs.get? i with
      | none => cases d1 <;> exact Or.inl rfl
      | some o2 =>
        cases o2 with
        | none => cases d1 <;> exact Or.inl rfl
        | some r2 =>
          obtain ⟨d2, s2⟩ := r2
          cases d1 <;> cases d2 <;>
            first
              | exact Or.inl rfl
              | (cases hb : (rng.genBool).1
                 · exact Or.inr ⟨i, Direction.Left, s2, (rng.genBool).2, Or.inr rfl, h2,
                     by rw [Rng.genBool] at hb ⊢; dsimp only at hb ⊢; rfl⟩
                 · exact Or.inr ⟨i - 2, Direction.Right, s1, (rng.genBool).2, Or.inl rfl, h1,
                     by rw [Rng.genBool] at hb ⊢; dsimp only at hb ⊢; rfl⟩)

theorem adjStep_fire1 {rs : List OReq} {i : Nat} {next dd : Option Direction} (ch : Bool)
    (h1 : rs.get? (i - 1) = some (some (Direction.Right, next)))
    (h2 : rs.get? i = some (some (Direction.Down, dd))) :
    adjStep (rs, ch) i = (rs.set (i - 1) (fire next), true) := by
  unfold adjStep
  dsimp only
  rw [h1, h2]

theorem adjStep_fire2 {rs : List OReq} {i : Nat} {dd next : Option Direction} (ch : Bool)
    (h1 : rs.get? (i - 1) = some (some (Direction.Down, dd)))
    (h2 : rs.get? i = some (some (Direction.Left, next))) :
    adjStep (rs, ch) i = (rs.set i (fire next), true) := by
  unfold adjStep
  dsimp only
  rw [h1, h2]

theorem twoStep_fire {rng : Rng} {rs : List OReq} {i : Nat} {ln rn : Option Direction}
    (ch : Bool)
    (h1 : rs.get? (i - 2) = some (some (Direction.Right, ln)))
    (h2 : rs.get? i = some (some (Direction.Left, rn))) :
    (twoStep (rng, rs, ch) i).2.2 = true := by
  unfold twoStep
  dsimp only
  rw [h1, h2]
  cases hb : (rng.genBool).1 <;>
    · rw [Rng.genBool] at hb ⊢
      dsimp only at hb ⊢
      rfl

/-! ### The conflict-resolution measure -/

theorem fWeight_fire_lt (d : Direction) (next : Option Direction)
    (hd : d = Direction.Right ∨ d = Direction.Left) :
    fWeight (fire next) < fWeight (some (d, next)) := by
  rcases hd with rfl | rfl <;>
    rcases next with _ | nd <;>
    first
      | decide
      | (cases nd <;> decide)

theorem mWeight_set {rs : List OReq} {k : Nat} {r : OReq} (h : rs.get? k = some r)
    (v : OReq) : mWeight (rs.set k v) + fWeight r = mWeight rs + fWeight v := by
  induction rs generalizing k with
  | nil => simp at h
  | cons a t ih =>
      cases k with
      | zero =>
          simp only [List.get?] at h
          cases h
          simp [mWeight, List.set]
          omega
      | succ k0 =>
          simp only [List.get?] at h
          have := ih h
          simp only [List.set, mWeight, List.map_cons, List.sum_cons] at this ⊢
          omega

theorem mWeight_set_lt {rs : List OReq} {k : Nat} {d : Direction}
    {next : Option Direction}
    (h : rs.get? k = some (some (d, next))) (hd : d = Direction.Right ∨ d = Direction.Left) :
    mWeight (rs.set k (fire next)) < mWeight rs := by
  have h1 := mWeight_set h (fire next)
  have h2 := fWeight_fire_lt d next hd
  omega

theorem foldl_adjStep_measure (l : List Nat) (rs : List OReq) (ch : Bool) :
    mWeight (l.foldl adjStep (rs, ch)).1 ≤ mWeight rs ∧
    (ch = false → (l.foldl adjStep (rs, ch)).2 = true →
      mWeight (l.foldl adjStep (rs, ch)).1 < mWeight rs) := by
  induction l generalizing rs ch with
  | nil =>
      refine ⟨Nat.le_refl _, ?_⟩
      intro h1 h2
      rw [List.foldl_nil] at h2
      rw [h1] at h2
      cases h2
  | cons i l ih =>
      rw [List.foldl_cons]
      rcases adjStep_cases rs ch i with heq | ⟨k, d, next, hd, hget, heq⟩
      · rw [heq]; exact ih rs ch
      · rw [heq]
        have hlt : mWeight (rs.set k (fire next)) < mWeight rs := mWeight_set_lt hget hd
        obtain ⟨ih1, -⟩ := ih (rs.set k (fire next)) true
        exact ⟨by omega, fun _ _ => by omega⟩

theorem foldl_twoStep_measure (l : List Nat) (rng : Rng) (rs : List OReq) (ch : Bool) :
    mWeight (l.foldl twoStep (rng, rs, ch)).2.1 ≤ mWeight rs ∧
    (ch = false → (l.foldl twoStep (rng, rs, ch)).2.2 = true →
      mWeight (l.foldl twoStep (rng, rs, ch)).2.1 < mWeight rs) := by
  induction l generalizing rng rs ch with
  | nil =>
      refine ⟨Nat.le_refl _, ?_⟩
      intro h1 h2
      rw [List.foldl_nil] at h2
      rw [h1] at h2
      cases h2
  | cons i l ih =>
      rw [List.foldl_cons]
      rcases twoStep_cases rng rs ch i with heq | ⟨k, d, next, rng2, hd, hget, heq⟩
      · rw [heq]; exact ih rng rs ch
      · rw [heq]
        have hlt : mWeight (rs.set k (fire next)) < mWeight rs := mWeight_set_lt hget hd
        obtain ⟨ih1, -⟩ := ih rng2 (rs.set k (fire next)) true
        exact ⟨by omega, fun _ _ => by omega⟩

theorem foldl_adjStep_length (l : List Nat) (rs : List OReq) (ch : Bool) :
    (l.foldl adjStep (rs, ch)).1.length = rs.length := by
  induction l generalizing rs ch with
  | nil => rfl
  | cons i l ih =>
      rw [List.foldl_cons]
      rcases adjStep_cases rs ch i with heq | ⟨k, d, next, hd, hget, heq⟩
      · rw [heq]; exact ih rs ch
      · rw [heq]
        rw [ih (rs.set k (fire next)) true, List.length_set]

theorem foldl_twoStep_length (l : List Nat) (rng : Rng) (rs : List OReq) (ch : Bool) :
    (l.foldl twoStep (rng, rs, ch)).2.1.length = rs.length := by
  induction l generalizing rng rs ch with
  | nil => rfl
  | cons i l ih =>
      rw [List.foldl_cons]
      rcases twoStep_cases rng rs ch i with heq | ⟨k, d, next, rng2, hd, hget, heq⟩
      · rw [heq]; exact ih rng rs ch
      · rw [heq]
        rw [ih rng2 (rs.set k (fire next)) true, List.length_set]

/-! ### Flag monotony and the fixed-point characterization -/

theorem foldl_adjStep_flag (l : List Nat) (rs : List OReq) :
    (l.foldl adjStep (rs, true)).2 = true := by
  induction l generalizing rs with
  | nil => rfl
  | cons i l ih =>
      rw [List.foldl_cons]
      rcases adjStep_cases rs true i with heq | ⟨k, d, next, hd, hget, heq⟩
      · rw [heq]; exact ih rs
      · rw [heq]; exact ih (rs.set k (fire next))

theorem foldl_twoStep_flag (l : List Nat) (rng : Rng) (rs : List OReq) :
    (l.foldl twoStep (rng, rs, true)).2.2 = true := by
  induction l generalizing rng rs with
  | nil => rfl
  | cons i l ih =>
      rw [List.foldl_cons]
      rcases twoStep_cases rng rs true i with heq | ⟨k, d, next, rng2, hd, hget, heq⟩
      · rw [heq]; exact ih rng rs
      · rw [heq]; exact ih rng2 (rs.set k (fire next))

theorem foldl_adjStep_false {l : List Nat} {rs : List OReq}
    (h : (l.foldl adjStep (rs, false)).2 = false) :
    l.foldl adjStep (rs, false) = (rs, false) ∧
    ∀ i ∈ l, adjStep (rs, false) i = (rs, false) := by
  induction l generalizing rs with
  | nil => exact ⟨rfl, by simp⟩
  | cons i l ih =>
      rw [List.foldl_cons] at h ⊢
      rcases adjStep_cases rs false i with heq | ⟨k, d, next, hd, hget, heq⟩
      · rw [heq] at h ⊢
        obtain ⟨h1, h2⟩ := ih h
        refine ⟨h1, ?_⟩
        intro j hj
        rcases List.mem_cons.mp hj with rfl | hj2
        · exact heq
        · exact h2 j hj2
      · rw [heq] at h
        rw [foldl_adjStep_flag] at h
        cases h

theorem foldl_twoStep_false {l : List Nat} {rng : Rng} {rs : List OReq}
    (h : (l.foldl twoStep (rng, rs, false)).2.2 = false) :
    l.foldl twoStep (rng, rs, false) = (rng, rs, false) ∧
    ∀ i ∈ l, twoStep (rng, rs, false) i = (rng, rs, false) := by
  induction l generalizing rng rs with
  | nil => exact ⟨rfl, by simp⟩
  | cons i l ih =>
      rw [List.foldl_cons] at h ⊢
      rcases twoStep_cases rng rs false i with heq | ⟨k, d, next, rng2, hd, hget, heq⟩
      · rw [heq] at h ⊢
        obtain ⟨h1, h2⟩ := ih h
        refine ⟨h1, ?_⟩
        intro j hj
        rcases List.mem_cons.mp hj with rfl | hj2
        · exact heq
        · exact h2 j hj2
      · rw [heq] at h
        rw [foldl_twoStep_flag] at h
        cases h

/-! ### The resolution pass and loop -/

theorem sweepAdj_eq (rs : List OReq) (ch : Bool) :
    sweepAdj rs ch = (List.range' 1 (rs.length - 1)).foldl adjStep (rs, ch) := rfl

theorem sweepTwo_eq (rng : Rng) (rs : List OReq) (ch : Bool) :
    sweepTwo rng rs ch = (List.range' 2 (rs.length - 2)).foldl twoStep (rng, rs, ch) := rfl

theorem resolvePass_eq (rng : Rng) (rs : List OReq) :
    resolvePass rng rs = sweepTwo rng (sweepAdj rs false).1 (sweepAdj rs false).2 := rfl

theorem resolvePass_decrease {rng : Rng} {rs : List OReq} {rng2 : Rng} {rs2 : List OReq}
    (h : resolvePass rng rs = (rng2, rs2, true)) : mWeight rs2 < mWeight rs := by
  rcases hA : sweepAdj rs false with ⟨rsA, chA⟩
  rw [resolvePass_eq, hA] at h
  dsimp only at h
  rw [sweepTwo_eq] at h
  rw [sweepAdj_eq] at hA
  have hm := foldl_adjStep_measure (List.range' 1 (rs.length - 1)) rs false
  rw [hA] at hm
  dsimp only at hm
  have ht := foldl_twoStep_measure (List.range' 2 (rsA.length - 2)) rng rsA chA
  rw [h] at ht
  dsimp only at ht
  cases chA with
  | true =>
      have h1 : mWeight rsA < mWeight rs := hm.2 rfl rfl
      have h2 : mWeight rs2 ≤ mWeight rsA := ht.1
      omega
  | false =>
      have h1 : mWeight rsA ≤ mWeight rs := hm.1
      have h2 : mWeight rs2 < mWeight rsA := ht.2 rfl rfl
      omega

theorem resolvePass_length (rng : Rng) (rs : List OReq) :
    (resolvePass rng rs).2.1.length = rs.length := by
  rcases hA : sweepAdj rs false with ⟨rsA, chA⟩
  rw [resolvePass_eq, hA]
  dsimp only
  rw [sweepTwo_eq]
  rw [sweepAdj_eq] at hA
  have hlA : rsA.length = rs.length := by
    have := foldl_adjStep_length (List.range' 1 (rs.length - 1)) rs false
    rw [hA] at this
    exact this
  rw [foldl_twoStep_length]
  exact hlA

theorem resolvePass_false {rng : Rng} {rng2 : Rng} {rs rs2 : List OReq}
    (h : resolvePass rng rs = (rng2, rs2, false)) :
    rs2 = rs ∧ rng2 = rng ∧ noConflicts rs := by
  rcases hA : sweepAdj rs false with ⟨rsA, chA⟩
  rw [resolvePass_eq, hA] at h
  dsimp only at h
  rw [sweepTwo_eq] at h
  rw [sweepAdj_eq] at hA
  cases chA with
  | true =>
      exfalso
      have hflag := foldl_twoStep_flag (List.range' 2 (rsA.length - 2)) rng rsA
      rw [h] at hflag
      cases hflag
  | false =>
      have hAflag : ((List.range' 1 (rs.length - 1)).foldl adjStep (rs, false)).2 = false := by
        rw [hA]
      obtain ⟨hA1, hA2⟩ := foldl_adjStep_false hAflag
      have hrsA : rsA = rs := by
        rw [hA1] at hA
        exact (Prod.mk.injEq _ _ _ _ ▸ hA).1.symm
      subst hrsA
      have hTflag : ((List.range' 2 (rsA.length - 2)).foldl twoStep (rng, rsA, false)).2.2 =
          false := by
        rw [h]
      obtain ⟨hT1, hT2⟩ := foldl_twoStep_false hTflag
      rw [h] at hT1
      have hT1' := Prod.mk.injEq _ _ _ _ ▸ hT1
      have hrng : rng2 = rng := hT1'.1
      have hrs : rs2 = rsA := (Prod.mk.injEq _ _ _ _ ▸ hT1'.2).1
      refine ⟨hrs, hrng, ?_, ?_, ?_⟩
      · rintro i next dd hi ⟨hg1, hg2⟩
        have hilen : i < rsA.length := by
          rw [List.get?_eq_getElem?] at hg2
          exact (List.getElem?_eq_some.mp hg2).1
        have hmem : i ∈ List.range' 1 (rsA.length - 1) :=
          List.mem_range'_1.mpr ⟨hi, by omega⟩
        have hstep := hA2 i hmem
        rw [adjStep_fire1 false hg1 hg2] at hstep
        have := (Prod.mk.injEq _ _ _ _ ▸ hstep).2
        cases this
      · rintro i dd next hi ⟨hg1, hg2⟩
        have hilen : i < rsA.length := by
          rw [List.get?_eq_getElem?] at hg2
          exact (List.getElem?_eq_some.mp hg2).1
        have hmem : i ∈ List.range' 1 (rsA.length - 1) :=
          List.mem_range'_1.mpr ⟨hi, by omega⟩
        have hstep := hA2 i hmem
        rw [adjStep_fire2 false hg1 hg2] at hstep
        have := (Prod.mk.injEq _ _ _ _ ▸ hstep).2
        cases this
      · rintro i ln rn hi ⟨hg1, hg2⟩
        have hilen : i < rsA.length := by
          rw [List.get?_eq_getElem?] at hg2
          exact (List.getElem?_eq_some.mp hg2).1
        have hmem : i ∈ List.range' 2 (rsA.length - 2) :=
          List.mem_range'_1.mpr ⟨hi, by omega⟩
        have hstep := hT2 i hmem
        have hflag := congrArg (fun st => st.2.2) hstep
        dsimp only at hflag
        rw [twoStep_fire false hg1 hg2] at hflag
        cases hflag

theorem resolveLoop_noConflicts :
    ∀ (fuel : Nat) (rng : Rng) (rs : List OReq) (rng2 : Rng) (rs2 : List OReq),
      resolveLoop fuel rng rs = some (rng2, rs2) → noConflicts rs2 := by
  intro fuel
  induction fuel with
  | zero => intro rng rs rng2 rs2 h; cases h
  | succ f ih =>
      intro rng rs rng2 rs2 h
      rw [resolveLoop] at h
      rcases hst : resolvePass rng rs with ⟨rngP, rsP, chP⟩
      rw [hst] at h
      dsimp only at h
      cases chP with
      | true => exact ih rngP rsP rng2 rs2 (by simpa using h)
      | false =>
          simp only [Bool.false_eq_true, if_false, Option.some.injEq] at h
          obtain ⟨hrs, hrng, hnc⟩ := resolvePass_false hst
          have h2 : rs2 = rsP := (Prod.mk.injEq _ _ _ _ ▸ h).2.symm
          rw [h2, hrs]
          exact hnc

theorem resolveLoop_isSome :
    ∀ (fuel : Nat) (rng : Rng) (rs : List OReq), mWeight rs < fuel →
      (resolveLoop fuel rng rs).isSome = true := by
  intro fuel
  induction fuel with
  | zero => intro rng rs h; omega
  | succ f ih =>
      intro rng rs h
      rw [resolveLoop]
      rcases hst : resolvePass rng rs with ⟨rngP, rsP, chP⟩
      dsimp only
      cases chP with
      | true =>
          have hdec : mWeight rsP < mWeight rs := resolvePass_decrease hst
          simpa using ih rngP rsP (by omega)
      | false => simp

theorem resolveLoop_length :
    ∀ (fuel : Nat) (rng : Rng) (rs : List OReq) (rng2 : Rng) (rs2 : List OReq),
      resolveLoop fuel rng rs = some (rng2, rs2) → rs2.length = rs.length := by
  intro fuel
  induction fuel with
  | zero => intro rng rs rng2 rs2 h; cases h
  | succ f ih =>
      intro rng rs rng2 rs2 h
      rw [resolveLoop] at h
      have hlen := resolvePass_length rng rs
      rcases hst : resolvePass rng rs with ⟨rngP, rsP, chP⟩
      rw [hst] at h hlen
      dsimp only at h hlen
      cases chP with
      | true =>
          have := ih rngP rsP rng2 rs2 (by simpa using h)
          omega
      | false =>
          simp only [Bool.false_eq_true, if_false, Option.some.injEq] at h
          have h2 : rs2 = rsP := (Prod.mk.injEq _ _ _ _ ▸ h).2.symm
          rw [h2]
          exact hlen

/-! ### C2: no two resolved moves share a destination -/

theorem run_physics_line_some {rng : Rng} {sand : List (Cell α)}
    {out : List (Option Direction)} {rng2 : Rng}
    (h : run_physics_line rng sand = some (out, rng2)) :
    ∃ reqs rng1 final, buildRequests rng sand = some (reqs, rng1) ∧
      resolveLoop (reqs.length + 1) rng1 reqs = some (rng2, final) ∧
      out = final.map (fun r => r.map Prod.fst) := by
  unfold run_physics_line at h
  cases hb : buildRequests rng sand with
  | none => rw [hb] at h; simp at h
  | some p =>
      obtain ⟨reqs, rng1⟩ := p
      rw [hb] at h
      simp only [Option.bind_eq_bind, Option.some_bind] at h
      cases hl : resolveLoop (reqs.length + 1) rng1 reqs with
      | none => rw [hl] at h; simp at h
      | some q =>
          obtain ⟨rngL, final⟩ := q
          rw [hl] at h
          simp only [Option.some_bind, Option.pure_def, Option.some.injEq] at h
          have h1 : final.map (fun r => r.map Prod.fst) = out :=
            (Prod.mk.injEq _ _ _ _ ▸ h).1
          have h2 : rngL = rng2 := (Prod.mk.injEq _ _ _ _ ▸ h).2
          subst h2
          exact ⟨reqs, rng1, final, rfl, hl, h1.symm⟩

theorem noConflicts_dest_inj_lt {final : List OReq} (hnc : noConflicts final)
    {j k : Nat} {dj dk : Direction} {sj sk : Option Direction}
    (hj : final.get? j = some (some (dj, sj))) (hk : final.get? k = some (some (dk, sk)))
    (hjk : j < k) : destOf j dj ≠ destOf k dk := by
  intro heq
  obtain ⟨h1, h2, h3⟩ := hnc
  cases dj <;> cases dk <;> simp only [destOf] at heq
  case Left.Left => omega
  case Left.Right => omega
  case Left.Down => omega
  case Down.Left =>
      refine h2 k sj sk (by omega) ⟨?_, hk⟩
      have hkj : k - 1 = j := by omega
      rw [hkj]
      exact hj
  case Down.Down => omega
  case Down.Right => omega
  case Right.Left =>
      refine h3 k sj sk (by omega) ⟨?_, hk⟩
      have hkj : k - 2 = j := by omega
      rw [hkj]
      exact hj
  case Right.Down =>
      refine h1 k sj sk (by omega) ⟨?_, hk⟩
      have hkj : k - 1 = j := by omega
      rw [hkj]
      exact hj
  case Right.Right => omega

theorem noConflicts_dest_inj {final : List OReq} (hnc : noConflicts final)
    {j k : Nat} {dj dk : Direction} {sj sk : Option Direction}
    (hj : final.get? j = some (some (dj, sj))) (hk : final.get? k = some (some (dk, sk)))
    (hne : j ≠ k) : destOf j dj ≠ destOf k dk := by
  rcases Nat.lt_or_ge j k with hlt | hge
  · exact noConflicts_dest_inj_lt hnc hj hk hlt
  · have hlt : k < j := by omega
    exact fun heq => noConflicts_dest_inj_lt hnc hk hj hlt heq.symm

/-- C2: whenever `run_physics_line` returns, no two source cells resolve to
the same destination cell: the surviving directions, read as destination
columns, are pairwise distinct — neither an adjacent pair converging nor two
diagonal moves two columns apart converging on the middle cell. -/
theorem C2_no_overlap (α : Type) (rng : Rng) (sand : List (Cell α))
    (out : List (Option Direction)) (rng2 : Rng)
    (h : run_physics_line rng sand = some (out, rng2)) :
    ∀ j k dj dk, out.get? j = some (some dj) → out.get? k = some (some dk) → j ≠ k →
      destOf j dj ≠ destOf k dk := by
  obtain ⟨reqs, rng1, final, hb, hl, hout⟩ := run_physics_line_some h
  have hnc : noConflicts final := resolveLoop_noConflicts _ _ _ _ _ hl
  subst hout
  intro j k dj dk hj hk hne
  rw [List.get?_eq_getElem?, List.getElem?_map] at hj hk
  cases hgj : final[j]? with
  | none => rw [hgj] at hj; cases hj
  | some rj =>
      rw [hgj] at hj
      cases hgk : final[k]? with
      | none => rw [hgk] at hk; cases hk
      | some rk =>
          rw [hgk] at hk
          simp only [Option.map_some', Option.some.injEq] at hj hk
          cases rj with
          | none => simp at hj
          | some pj =>
              cases rk with
              | none => simp at hk
              | some pk =>
                  obtain ⟨dj0, sj⟩ := pj
                  obtain ⟨dk0, sk⟩ := pk
                  simp only [Option.map_some', Option.some.injEq] at hj hk
                  cases hj
                  cases hk
                  exact noConflicts_dest_inj hnc
                    (by rw [List.get?_eq_getElem?]; exact hgj)
                    (by rw [List.get?_eq_getElem?]; exact hgk) hne

/-- Closed witness for C2 at a concrete input: a 5-wide row pair with grains
in both upper corners, both of which resolve to `Down`. -/
theorem C2_no_overlap_witness :
    run_physics_line ⟨streamConst 1, 0⟩ sandC2 =
      some ([some Direction.Down, none, none, none, some Direction.Down],
        ⟨streamConst 1, 2⟩) ∧
    destOf 0 Direction.Down ≠ destOf 4 Direction.Down := by
  have hrun : run_physics_line ⟨streamConst 1, 0⟩ sandC2 =
      some ([some Direction.Down, none, none, none, some Direction.Down],
        ⟨streamConst 1, 2⟩) := rfl
  refine ⟨hrun, ?_⟩
  exact C2_no_overlap Nat ⟨streamConst 1, 0⟩ sandC2 _ _ hrun 0 4
    Direction.Down Direction.Down rfl rfl (by decide)

/-! ### The initial request vector has total weight at most the board width -/

theorem fWeight_le_two (r : OReq) : fWeight r ≤ 2 := by
  rcases r with _ | ⟨p, s⟩
  · decide
  · cases p <;> rcases s with _ | sd <;> try cases sd
    all_goals decide

theorem fWeight_decide_left_true (rng : Rng) (d r : Bool) :
    fWeight (decide_direction rng true d r).1 ≤ 1 := by
  cases d <;> cases r <;>
    · simp only [decide_direction, Rng.genRange32, Rng.genBool, Rng.next]
      first
        | decide
        | (split <;> first | decide | (split <;> decide))

theorem fWeight_decide_right_true (rng : Rng) (l d : Bool) :
    fWeight (decide_direction rng l d true).1 ≤ 1 := by
  cases l <;> cases d <;>
    · simp only [decide_direction, Rng.genRange32, Rng.genBool, Rng.next]
      first
        | decide
        | (split <;> first | decide | (split <;> decide))

theorem fWeight_decide_eq_two {rng : Rng} {l d r : Bool}
    (h : fWeight (decide_direction rng l d r).1 = 2) : l = false ∧ d = true ∧ r = false := by
  cases l <;> cases d <;> cases r <;>
    first
      | exact ⟨rfl, rfl, rfl⟩
      | (exfalso
         revert h
         simp only [decide_direction, Rng.genRange32, Rng.genBool, Rng.next]
         first
           | decide
           | (split <;> first | decide | (split <;> decide))
           | (intro h
              rcases hsplit : (rng.stream rng.pos % 2 == 0) with _ | _ <;>
                rw [hsplit] at h <;> revert h <;> decide))

theorem mkMidReq_fWeight_two {rng : Rng} {a b c : Cell α}
    (h : fWeight (mkMidReq rng a b c).1 = 2) : c.1 = none := by
  unfold mkMidReq at h
  by_cases hb : b.1.isSome
  · rw [if_pos hb] at h
    have h2 := fWeight_decide_eq_two h
    have hc := h2.2.2
    rcases hcc : c.1 with _ | v
    · rfl
    · exfalso
      rw [hcc] at hc
      simp at hc
  · rw [if_neg hb] at h
    simp [fWeight] at h

theorem PairedL_tail : ∀ {x : OReq} {xs : List OReq}, PairedL (x :: xs) → PairedL xs
  | _, [], _ => trivial
  | _, _ :: _, h => h.2

theorem PairedL_cons {a : OReq} {xs : List OReq} (ha : fWeight a ≤ 1) (hxs : PairedL xs) :
    PairedL (a :: xs) := by
  cases xs with
  | nil => exact ha
  | cons x t => exact ⟨fun h2 => absurd h2 (by omega), hxs⟩

theorem pairedSum : ∀ (rs : List OReq), PairedL rs → mWeight rs ≤ rs.length
  | [], _ => by simp [mWeight]
  | [a], h => by
      have ha : fWeight a ≤ 1 := h
      simp only [mWeight, List.map_cons, List.map_nil, List.sum_cons, List.sum_nil,
        List.length_cons, List.length_nil]
      omega
  | a :: b :: t, h => by
      obtain ⟨hab, hbt⟩ := h
      rcases Nat.lt_or_ge (fWeight a) 2 with ha | ha
      · have hrec := pairedSum (b :: t) hbt
        simp only [mWeight, List.map_cons, List.sum_cons, List.length_cons] at hrec ⊢
        omega
      · have ha2 : fWeight a = 2 := by
          have := fWeight_le_two a
          omega
        have hb0 : fWeight b = 0 := hab ha2
        have hrec := pairedSum t (PairedL_tail hbt)
        simp only [mWeight, List.map_cons, List.sum_cons, List.length_cons] at hrec ⊢
        omega

theorem midReqs_length : ∀ (rng : Rng) (cells : List (Cell α)),
    (midReqs rng cells).1.length = cells.length - 2
  | _, [] => rfl
  | _, [_] => rfl
  | _, [_, _] => rfl
  | rng, a :: b :: c :: rest => by
      have hrec := midReqs_length (mkMidReq rng a b c).2 (b :: c :: rest)
      show ((mkMidReq rng a b c).1 ::
          (midReqs (mkMidReq rng a b c).2 (b :: c :: rest)).1).length = _
      simp only [List.length_cons, List.length_cons] at hrec ⊢
      omega

theorem midPaired : ∀ (rng : Rng) (cells : List (Cell α)) (rl : OReq),
    fWeight rl ≤ 1 →
    (∀ last, cells.getLast? = some last → last.1 = none → rl = none) →
    PairedL ((midReqs rng cells).1 ++ [rl])
  | _, [], rl, hrl, _ => by
      show PairedL ([] ++ [rl])
      simpa using hrl
  | _, [_], rl, hrl, _ => by
      show PairedL ([] ++ [rl])
      simpa using hrl
  | _, [_, _], rl, hrl, _ => by
      show PairedL ([] ++ [rl])
      simpa using hrl
  | rng, a :: b :: c :: rest, rl, hrl, hlast => by
      have hmid : (midReqs rng (a :: b :: c :: rest)).1 =
          (mkMidReq rng a b c).1 :: (midReqs (mkMidReq rng a b c).2 (b :: c :: rest)).1 :=
        rfl
      have hlast2 : ∀ last, (b :: c :: rest).getLast? = some last → last.1 = none →
          rl = none := by
        intro last hl
        exact hlast last (by rwa [List.getLast?_cons_cons])
      have hrec := midPaired (mkMidReq rng a b c).2 (b :: c :: rest) rl hrl hlast2
      rw [hmid, List.cons_append]
      cases rest with
      | nil =>
          -- inner midReqs is empty: the tail is just [rl]
          have hinner : (midReqs (mkMidReq rng a b c).2 [b, c]).1 = [] := rfl
          rw [hinner, List.nil_append] at hrec ⊢
          refine ⟨?_, hrec⟩
          intro h2
          have hc : c.1 = none := mkMidReq_fWeight_two h2
          have hrlnone : rl = none := hlast c (by rw [List.getLast?_cons_cons]; rfl) hc
          rw [hrlnone]
          rfl
      | cons d rest2 =>
          have hinner : (midReqs (mkMidReq rng a b c).2 (b :: c :: d :: rest2)).1 =
              (mkMidReq (mkMidReq rng a b c).2 b c d).1 ::
              (midReqs (mkMidReq (mkMidReq rng a b c).2 b c d).2 (c :: d :: rest2)).1 :=
            rfl
          rw [hinner, List.cons_append] at hrec ⊢
          refine ⟨?_, hrec⟩
          intro h2
          have hc : c.1 = none := mkMidReq_fWeight_two h2
          show fWeight (mkMidReq (mkMidReq rng a b c).2 b c d).1 = 0
          unfold mkMidReq
          rw [hc]
          simp [fWeight]

theorem firstTriple_shape {sand : List (Cell α)} {ft : Option (Bool × Bool × Bool)}
    (h : firstTriple sand = some ft) : ft = none ∨ ∃ d r, ft = some (true, d, r) := by
  unfold firstTriple at h
  cases h0 : sand.get? 0 with
  | none => rw [h0] at h; simp at h
  | some c0 =>
      rw [h0] at h
      simp only [Option.bind_eq_bind, Option.some_bind] at h
      by_cases hc : c0.1.isSome
      · rw [if_pos hc] at h
        cases h1 : sand.get? 1 with
        | none => rw [h1] at h; simp at h
        | some w1 =>
            rw [h1] at h
            cases h2 : sand.get? 2 with
            | none => rw [h2] at h; simp at h
            | some w2 =>
                rw [h2] at h
                simp only [Option.some_bind, Option.pure_def, Option.some.injEq] at h
                exact Or.inr ⟨w1.2.isSome, w2.2.isSome || w2.1.isSome, h.symm⟩
      · rw [if_neg hc] at h
        simp only [Option.pure_def, Option.some.injEq] at h
        exact Or.inl h.symm

theorem lastTriple_shape {sand : List (Cell α)} {lt : Option (Bool × Bool × Bool)}
    (h : lastTriple sand = some lt) : lt = none ∨ ∃ a b, lt = some (a, b, true) := by
  unfold lastTriple at h
  cases h0 : sand.get? (sand.length - 1) with
  | none => rw [h0] at h; simp at h
  | some cl =>
      rw [h0] at h
      simp only [Option.bind_eq_bind, Option.some_bind] at h
      by_cases hc : cl.1.isSome
      · rw [if_pos hc] at h
        by_cases hlen : sand.length < 2
        · rw [if_pos hlen] at h; cases h
        · rw [if_neg hlen] at h
          cases h1 : sand.get? (sand.length - 2) with
          | none => rw [h1] at h; simp at h
          | some a =>
              rw [h1] at h
              simp only [Option.some_bind, Option.pure_def, Option.some.injEq] at h
              exact Or.inr ⟨a.2.isSome, cl.2.isSome, h.symm⟩
      · rw [if_neg hc] at h
        simp only [Option.pure_def, Option.some.injEq] at h
        exact Or.inl h.symm

theorem buildRequests_some {rng : Rng} {sand : List (Cell α)} {reqs : List OReq}
    {rng2 : Rng} (h : buildRequests rng sand = some (reqs, rng2)) :
    ∃ ft lt, firstTriple sand = some ft ∧ lastTriple sand = some lt ∧
      reqs = (applyDecide rng ft).1 :: (midReqs (applyDecide rng ft).2 sand).1 ++
        [(applyDecide (midReqs (applyDecide rng ft).2 sand).2 lt).1] := by
  unfold buildRequests at h
  cases hf : firstTriple sand with
  | none => rw [hf] at h; simp at h
  | some ft =>
      rw [hf] at h
      simp only [Option.bind_eq_bind, Option.some_bind] at h
      cases hl : lastTriple sand with
      | none => rw [hl] at h; simp at h
      | some lt =>
          rw [hl] at h
          simp only [Option.some_bind, Option.pure_def, Option.some.injEq,
            Prod.mk.injEq] at h
          exact ⟨ft, lt, rfl, rfl, h.1.symm⟩

theorem fWeight_applyDecide_first {rng : Rng} {ft : Option (Bool × Bool × Bool)}
    (h : ft = none ∨ ∃ d r, ft = some (true, d, r)) :
    fWeight (applyDecide rng ft).1 ≤ 1 := by
  rcases h with rfl | ⟨d, r, rfl⟩
  · have : (applyDecide rng (none : Option (Bool × Bool × Bool))).1 = none := rfl
    rw [this]
    decide
  · exact fWeight_decide_left_true rng d r

theorem fWeight_applyDecide_last {rng : Rng} {lt : Option (Bool × Bool × Bool)}
    (h : lt = none ∨ ∃ a b, lt = some (a, b, true)) :
    fWeight (applyDecide rng lt).1 ≤ 1 := by
  rcases h with rfl | ⟨a, b, rfl⟩
  · have : (applyDecide rng (none : Option (Bool × Bool × Bool))).1 = none := rfl
    rw [this]
    decide
  · exact fWeight_decide_right_true rng a b

theorem buildRequests_weight_le {rng : Rng} {sand : List (Cell α)} {reqs : List OReq}
    {rng2 : Rng} (h : buildRequests rng sand = some (reqs, rng2)) :
    mWeight reqs ≤ reqs.length := by
  obtain ⟨ft, lt, hf, hl, hreqs⟩ := buildRequests_some h
  subst hreqs
  refine pairedSum _ (PairedL_cons (fWeight_applyDecide_first (firstTriple_shape hf)) ?_)
  refine midPaired (applyDecide rng ft).2 sand _
    (fWeight_applyDecide_last (lastTriple_shape hl)) ?_
  intro last hlast hupper
  have hltnone : lt = none := by
    unfold lastTriple at hl
    have hget : sand.get? (sand.length - 1) = some last := by
      rw [List.get?_eq_getElem?]
      rw [List.getLast?_eq_getElem?] at hlast
      exact hlast
    rw [hget] at hl
    simp only [Option.bind_eq_bind, Option.some_bind] at hl
    rw [hupper] at hl
    simp only [Option.isSome_none, Bool.false_eq_true, if_false, Option.pure_def,
      Option.some.injEq] at hl
    exact hl.symm
  rw [hltnone]
  rfl

theorem firstTriple_single (a : Cell α) :
    firstTriple [a] = if a.1.isSome then none else some none := by
  unfold firstTriple
  cases ha : a.1.isSome <;>
    simp [List.get?, ha]

theorem lastTriple_single (a : Cell α) :
    lastTriple [a] = if a.1.isSome then none else some none := by
  unfold lastTriple
  cases ha : a.1.isSome <;>
    simp [List.get?, ha]

theorem buildRequests_weight_le_width {rng : Rng} {sand : List (Cell α)}
    {reqs : List OReq} {rng2 : Rng} (h : buildRequests rng sand = some (reqs, rng2)) :
    mWeight reqs ≤ sand.length := by
  cases sand with
  | nil =>
      exfalso
      obtain ⟨ft, lt, hf, -, -⟩ := buildRequests_some h
      unfold firstTriple at hf
      simp [List.get?] at hf
  | cons a t =>
      cases t with
      | nil =>
          obtain ⟨ft, lt, hf, hl, hreqs⟩ := buildRequests_some h
          rw [firstTriple_single] at hf
          rw [lastTriple_single] at hl
          cases ha : a.1.isSome with
          | true => rw [ha] at hf; simp at hf
          | false =>
              rw [ha] at hf hl
              simp only [Bool.false_eq_true, if_false, Option.some.injEq] at hf hl
              rw [hreqs, ← hf, ← hl]
              show mWeight [(applyDecide rng none).1, _] ≤ 1
              have h1 : (applyDecide rng (none : Option (Bool × Bool × Bool))).1 = none :=
                rfl
              have h2 : ∀ rng3 : Rng,
                  (applyDecide rng3 (none : Option (Bool × Bool × Bool))).1 = none :=
                fun _ => rfl
              rw [h1, h2]
              decide
      | cons b t2 =>
          have hlen : reqs.length = (a :: b :: t2).length := by
            obtain ⟨ft, lt, hf, hl, hreqs⟩ := buildRequests_some h
            rw [hreqs]
            simp only [List.length_cons, List.length_append, List.length_cons,
              List.length_nil, midReqs_length]
            omega
          rw [← hlen]
          exact buildRequests_weight_le h

theorem passIter_succ (k : Nat) (rng : Rng) (rs : List OReq) :
    passIter (k + 1) rng rs =
      passIter k (resolvePass rng rs).1 (resolvePass rng rs).2.1 := rfl

theorem fix_within : ∀ (n : Nat) (rng : Rng) (rs : List OReq), mWeight rs ≤ n →
    ∃ k, k ≤ n ∧
      (resolvePass (passIter k rng rs).1 (passIter k rng rs).2).2.2 = false := by
  intro n
  induction n with
  | zero =>
      intro rng rs h
      refine ⟨0, Nat.le_refl 0, ?_⟩
      rcases hp : resolvePass rng rs with ⟨rngP, rsP, chP⟩
      cases chP with
      | false => simpa [passIter, hp]
      | true =>
          exfalso
          have := resolvePass_decrease hp
          omega
  | succ n ih =>
      intro rng rs h
      rcases hp : resolvePass rng rs with ⟨rngP, rsP, chP⟩
      cases chP with
      | false => exact ⟨0, by omega, by simpa [passIter, hp]⟩
      | true =>
          have hdec := resolvePass_decrease hp
          obtain ⟨k, hk, hfix⟩ := ih rngP rsP (by omega)
          refine ⟨k + 1, by omega, ?_⟩
          rw [passIter_succ, hp]
          exact hfix

/-- C8: the conflict-resolution loop terminates for every row pair and every
random-source state.  Whenever the request vector is built (no panic), then
for every random-source state, iterating the resolution pass reaches a fixed
point (a pass whose `changed` flag stays false) within at most board-width
iterations — each rule application strictly decreases the weight measure
`mWeight` — and consequently the loop of the embedding returns. -/
theorem C8_resolution_terminates (α : Type) (rng : Rng) (sand : List (Cell α))
    (reqs : List OReq) (rng1 : Rng)
    (h : buildRequests rng sand = some (reqs, rng1)) :
    (∀ rng0 : Rng, ∃ k, k ≤ sand.length ∧
      (resolvePass (passIter k rng0 reqs).1 (passIter k rng0 reqs).2).2.2 = false) ∧
    (resolveLoop (reqs.length + 1) rng1 reqs).isSome = true := by
  constructor
  · intro rng0
    exact fix_within sand.length rng0 reqs (buildRequests_weight_le_width h)
  · refine resolveLoop_isSome (reqs.length + 1) rng1 reqs ?_
    have := buildRequests_weight_le h
    omega

/-- Closed witness for C8 at a concrete input: the empty 3-wide row pair. -/
theorem C8_resolution_terminates_witness :
    buildRequests ⟨streamConst 0, 0⟩ sandC8 =
      some (([none, none, none] : List OReq), ⟨streamConst 0, 0⟩) ∧
    ((∀ rng0 : Rng, ∃ k, k ≤ sandC8.length ∧
        (resolvePass (passIter k rng0 ([none, none, none] : List OReq)).1
          (passIter k rng0 ([none, none, none] : List OReq)).2).2.2 = false) ∧
      (resolveLoop (([none, none, none] : List OReq).length + 1) ⟨streamConst 0, 0⟩
        ([none, none, none] : List OReq)).isSome = true) :=
  ⟨rfl, C8_resolution_terminates Nat ⟨streamConst 0, 0⟩ sandC8
    ([none, none, none] : List OReq) ⟨streamConst 0, 0⟩ rfl⟩

/-! ### C9: totality for widths at least 3, and horizontal containment -/

theorem buildRequests_isSome (rng : Rng) {sand : List (Cell α)} (h : 3 ≤ sand.length) :
    (buildRequests rng sand).isSome = true := by
  have hf : (firstTriple sand).isSome = true := by
    rcases sand with _ | ⟨a, _ | ⟨b, _ | ⟨c, t⟩⟩⟩ <;> try simp at h
    unfold firstTriple
    cases ha : a.1.isSome <;> simp [List.get?, ha]
  have hlst : (lastTriple sand).isSome = true := by
    obtain ⟨cl, hcl⟩ : ∃ cl, sand.get? (sand.length - 1) = some cl := by
      rw [List.get?_eq_getElem?,
        List.getElem?_eq_getElem (show sand.length - 1 < sand.length by omega)]
      exact ⟨_, rfl⟩
    obtain ⟨a2, ha2⟩ : ∃ a2, sand.get? (sand.length - 2) = some a2 := by
      rw [List.get?_eq_getElem?]
      have h2 : sand.length - 2 < sand.length := by omega
      rw [List.getElem?_eq_getElem h2]
      exact ⟨_, rfl⟩
    have ha2g : sand[sand.length - 2]? = some a2 := by
      rw [← List.get?_eq_getElem?]
      exact ha2
    unfold lastTriple
    rw [hcl]
    cases hc : cl.1.isSome <;>
      simp [Option.bind_eq_bind, hc, ha2g, show ¬(sand.length < 2) by omega]
  obtain ⟨ft, hft⟩ := Option.isSome_iff_exists.mp hf
  obtain ⟨lt, hlt⟩ := Option.isSome_iff_exists.mp hlst
  unfold buildRequests
  rw [hft, hlt]
  simp

theorem noLeftReq_fire {d : Direction} {next : Option Direction}
    (h : noLeftReq (some (d, next))) : noLeftReq (fire next) := by
  cases next with
  | none => trivial
  | some nd =>
      refine ⟨?_, by simp [fire]⟩
      intro hnd
      exact h.2 (by rw [hnd])

theorem noRightReq_fire {d : Direction} {next : Option Direction}
    (h : noRightReq (some (d, next))) : noRightReq (fire next) := by
  cases next with
  | none => trivial
  | some nd =>
      refine ⟨?_, by simp [fire]⟩
      intro hnd
      exact h.2 (by rw [hnd])

theorem noLeftReq_decide_left_true (rng : Rng) (d r : Bool) :
    noLeftReq (decide_direction rng true d r).1 := by
  cases d <;> cases r <;>
    · simp only [decide_direction, Rng.genRange32, Rng.next]
      first
        | trivial
        | (split_ifs <;> simp_all [noLeftReq])
        | simp [noLeftReq]

theorem noRightReq_decide_right_true (rng : Rng) (l d : Bool) :
    noRightReq (decide_direction rng l d true).1 := by
  cases l <;> cases d <;>
    · simp only [decide_direction, Rng.genRange32, Rng.next]
      first
        | trivial
        | (split_ifs <;> simp_all [noRightReq])
        | simp [noRightReq]

theorem foldl_adjStep_preserve (P : Nat → OReq → Prop)
    (hP : ∀ k d next, P k (some (d, next)) → P k (fire next)) :
    ∀ (l : List Nat) (rs : List OReq) (ch : Bool),
      (∀ k r, rs.get? k = some r → P k r) →
      ∀ k r, (l.foldl adjStep (rs, ch)).1.get? k = some r → P k r := by
  intro l
  induction l with
  | nil => intro rs ch hinv; exact hinv
  | cons i l ih =>
      intro rs ch hinv
      rw [List.foldl_cons]
      rcases adjStep_cases rs ch i with heq | ⟨k0, d, next, hd, hget, heq⟩
      · rw [heq]; exact ih rs ch hinv
      · rw [heq]
        refine ih _ _ ?_
        intro k r hkr
        by_cases hk : k = k0
        · subst hk
          have hklen : k < rs.length := by
            rw [List.get?_eq_getElem?] at hget
            exact (List.getElem?_eq_some.mp hget).1
          rw [List.get?_eq_getElem?, List.getElem?_set_eq hklen] at hkr
          cases hkr
          exact hP k d next (hinv k _ hget)
        · rw [List.get?_eq_getElem?, List.getElem?_set_ne (Ne.symm hk),
            ← List.get?_eq_getElem?] at hkr
          exact hinv k r hkr

theorem foldl_twoStep_preserve (P : Nat → OReq → Prop)
    (hP : ∀ k d next, P k (some (d, next)) → P k (fire next)) :
    ∀ (l : List Nat) (rng : Rng) (rs : List OReq) (ch : Bool),
      (∀ k r, rs.get? k = some r → P k r) →
      ∀ k r, (l.foldl twoStep (rng, rs, ch)).2.1.get? k = some r → P k r := by
  intro l
  induction l with
  | nil => intro rng rs ch hinv; exact hinv
  | cons i l ih =>
      intro rng rs ch hinv
      rw [List.foldl_cons]
      rcases twoStep_cases rng rs ch i with heq | ⟨k0, d, next, rng2, hd, hget, heq⟩
      · rw [heq]; exact ih rng rs ch hinv
      · rw [heq]
        refine ih _ _ _ ?_
        intro k r hkr
        by_cases hk : k = k0
        · subst hk
          have hklen : k < rs.length := by
            rw [List.get?_eq_getElem?] at hget
            exact (List.getElem?_eq_some.mp hget).1
          rw [List.get?_eq_getElem?, List.getElem?_set_eq hklen] at hkr
          cases hkr
          exact hP k d next (hinv k _ hget)
        · rw [List.get?_eq_getElem?, List.getElem?_set_ne (Ne.symm hk),
            ← List.get?_eq_getElem?] at hkr
          exact hinv k r hkr

theorem resolvePass_preserve (P : Nat → OReq → Prop)
    (hP : ∀ k d next, P k (some (d, next)) → P k (fire next))
    (rng : Rng) (rs : List OReq)
    (hinv : ∀ k r, rs.get? k = some r → P k r) :
    ∀ k r, (resolvePass rng rs).2.1.get? k = some r → P k r := by
  intro k r hkr
  rw [resolvePass_eq] at hkr
  rcases hA : sweepAdj rs false with ⟨rsA, chA⟩
  rw [hA] at hkr
  dsimp only at hkr
  rw [sweepTwo_eq] at hkr
  rw [sweepAdj_eq] at hA
  have hinvA : ∀ k2 r2, rsA.get? k2 = some r2 → P k2 r2 := by
    have htmp := foldl_adjStep_preserve P hP (List.range' 1 (rs.length - 1)) rs false hinv
    rw [hA] at htmp
    exact htmp
  exact foldl_twoStep_preserve P hP _ rng rsA chA hinvA k r hkr

theorem resolveLoop_preserve (P : Nat → OReq → Prop)
    (hP : ∀ k d next, P k (some (d, next)) → P k (fire next)) :
    ∀ (fuel : Nat) (rng : Rng) (rs : List OReq) (rng2 : Rng) (rs2 : List OReq),
      resolveLoop fuel rng rs = some (rng2, rs2) →
      (∀ k r, rs.get? k = some r → P k r) →
      ∀ k r, rs2.get? k = some r → P k r := by
  intro fuel
  induction fuel with
  | zero => intro rng rs rng2 rs2 h; cases h
  | succ f ih =>
      intro rng rs rng2 rs2 h hinv
      rw [resolveLoop] at h
      rcases hp : resolvePass rng rs with ⟨rngP, rsP, chP⟩
      rw [hp] at h
      dsimp only at h
      have hinvP : ∀ k r, rsP.get? k = some r → P k r := by
        have htmp := resolvePass_preserve P hP rng rs hinv
        rw [hp] at htmp
        exact htmp
      cases chP with
      | true => exact ih rngP rsP rng2 rs2 (by simpa using h) hinvP
      | false =>
          simp only [Bool.false_eq_true, if_false, Option.some.injEq] at h
          have h2 : rs2 = rsP := (Prod.mk.injEq _ _ _ _ ▸ h).2.symm
          rw [h2]
          exact hinvP


theorem get?_cons_append_last (x : OReq) (A : List OReq) (B : OReq) :
    (x :: A ++ [B]).get? (A.length + 1) = some B := by
  rw [List.cons_append, List.get?_cons_succ, List.get?_concat_length]

/-- C9 (amended): on every row pair of width at least 3 — the real board —
`run_physics_line` is total (no out-of-bounds access, hence no panic),
returns one direction slot per column, and never resolves `Left` for the
column-0 cell nor `Right` for the rightmost cell, so applying its moves never
indexes outside the grid horizontally.  (On widths 1 and 2 an occupied edge
cell panics; see the counterexample.) -/
theorem C9_total_and_contained (α : Type) (rng : Rng) (sand : List (Cell α))
    (h3 : 3 ≤ sand.length) :
    ∃ out rng2, run_physics_line rng sand = some (out, rng2) ∧
      out.length = sand.length ∧
      out.get? 0 ≠ some (some Direction.Left) ∧
      out.get? (sand.length - 1) ≠ some (some Direction.Right) := by
  obtain ⟨pr, hb⟩ := Option.isSome_iff_exists.mp (buildRequests_isSome rng h3)
  obtain ⟨reqs, rng1⟩ := pr
  obtain ⟨ft, lt, hf, hl, hreqs⟩ := buildRequests_some hb
  have hmlen : (midReqs (applyDecide rng ft).2 sand).1.length = sand.length - 2 :=
    midReqs_length _ _
  have hrlen : reqs.length = sand.length := by
    rw [hreqs]
    simp only [List.length_cons, List.length_append, List.length_cons, List.length_nil]
    omega
  have hfuel : mWeight reqs < reqs.length + 1 := by
    have := buildRequests_weight_le hb
    omega
  obtain ⟨ql, hloop⟩ := Option.isSome_iff_exists.mp
    (resolveLoop_isSome (reqs.length + 1) rng1 reqs hfuel)
  obtain ⟨rngL, final⟩ := ql
  have hflen : final.length = reqs.length := resolveLoop_length _ _ _ _ _ hloop
  have hrun : run_physics_line rng sand =
      some (final.map (fun r => r.map Prod.fst), rngL) := by
    unfold run_physics_line
    rw [hb]
    simp only [Option.bind_eq_bind, Option.some_bind]
    rw [hloop]
    simp only [Option.some_bind, Option.pure_def]
  have hP : ∀ k d next,
      ((k = 0 → noLeftReq (some (d, next))) ∧
        (k = sand.length - 1 → noRightReq (some (d, next)))) →
      ((k = 0 → noLeftReq (fire next)) ∧
        (k = sand.length - 1 → noRightReq (fire next))) :=
    fun k d next hp =>
      ⟨fun h0 => noLeftReq_fire (hp.1 h0), fun hl2 => noRightReq_fire (hp.2 hl2)⟩
  have hinit : ∀ k r, reqs.get? k = some r →
      (k = 0 → noLeftReq r) ∧ (k = sand.length - 1 → noRightReq r) := by
    intro k r hkr
    constructor
    · intro hk0
      subst hk0
      have h0 : reqs.get? 0 = some ((applyDecide rng ft).1) := by
        rw [hreqs]
        rfl
      rw [hkr] at h0
      rw [Option.some.inj h0]
      rcases firstTriple_shape hf with hftn | ⟨d0, r0, hfts⟩
      · rw [hftn]; trivial
      · rw [hfts]; exact noLeftReq_decide_left_true rng d0 r0
    · intro hklast
      subst hklast
      have hidx : sand.length - 1 = (midReqs (applyDecide rng ft).2 sand).1.length + 1 := by
        omega
      have hlst : reqs.get? (sand.length - 1) =
          some ((applyDecide (midReqs (applyDecide rng ft).2 sand).2 lt).1) := by
        rw [hreqs, hidx]
        exact get?_cons_append_last _ _ _
      rw [hkr] at hlst
      rw [Option.some.inj hlst]
      rcases lastTriple_shape hl with hltn | ⟨a0, b0, hlts⟩
      · rw [hltn]; trivial
      · rw [hlts]; exact noRightReq_decide_right_true _ a0 b0
  have hfinal := resolveLoop_preserve
    (fun k r => (k = 0 → noLeftReq r) ∧ (k = sand.length - 1 → noRightReq r)) hP
    (reqs.length + 1) rng1 reqs rngL final hloop hinit
  refine ⟨final.map (fun r => r.map Prod.fst), rngL, hrun, ?_, ?_, ?_⟩
  · rw [List.length_map]; omega
  · intro hout
    rw [List.get?_eq_getElem?, List.getElem?_map] at hout
    cases hf0 : final[0]? with
    | none => rw [hf0] at hout; cases hout
    | some r0 =>
        rw [hf0] at hout
        simp only [Option.map_some', Option.some.injEq] at hout
        cases r0 with
        | none => simp at hout
        | some p0 =>
            obtain ⟨d0, s0⟩ := p0
            simp only [Option.map_some', Option.some.injEq] at hout
            subst hout
            have := (hfinal 0 (some (Direction.Left, s0))
              (by rw [List.get?_eq_getElem?]; exact hf0)).1 rfl
            exact this.1 rfl
  · intro hout
    rw [List.get?_eq_getElem?, List.getElem?_map] at hout
    cases hf0 : final[sand.length - 1]? with
    | none => rw [hf0] at hout; cases hout
    | some r0 =>
        rw [hf0] at hout
        simp only [Option.map_some', Option.some.injEq] at hout
        cases r0 with
        | none => simp at hout
        | some p0 =>
            obtain ⟨d0, s0⟩ := p0
            simp only [Option.map_some', Option.some.injEq] at hout
            subst hout
            have := (hfinal (sand.length - 1) (some (Direction.Right, s0))
              (by rw [List.get?_eq_getElem?]; exact hf0)).2 rfl
            exact this.1 rfl

/-- Closed witness for the amended C9 at a concrete input: the empty 3-wide
row pair. -/
theorem C9_total_and_contained_witness :
    3 ≤ sandC8.length ∧
    ∃ out rng2, run_physics_line ⟨streamConst 0, 0⟩ sandC8 = some (out, rng2) ∧
      out.length = sandC8.length ∧
      out.get? 0 ≠ some (some Direction.Left) ∧
      out.get? (sandC8.length - 1) ≠ some (some Direction.Right) :=
  ⟨by decide,
    C9_total_and_contained Nat ⟨streamConst 0, 0⟩ sandC8 (by decide)⟩

/-! ### C3: the per-cell decision for interior cells -/

theorem decide_none_iff (rng : Rng) (l d r : Bool) :
    (decide_direction rng l d r).1 = none ↔ (l && d && r) = true := by
  cases l <;> cases d <;> cases r <;>
    simp [decide_direction, Rng.genRange32, Rng.genBool, Rng.next]

theorem midReqs_get : ∀ (rng : Rng) (cells : List (Cell α)) (m : Nat) (r : OReq),
    (midReqs rng cells).1.get? m = some r →
    ∃ (rng2 : Rng) (a b c : Cell α), cells.get? m = some a ∧
      cells.get? (m + 1) = some b ∧ cells.get? (m + 2) = some c ∧
      r = (mkMidReq rng2 a b c).1
  | rng, [], m, r => by intro h; simp [midReqs] at h
  | rng, [_], m, r => by intro h; simp [midReqs] at h
  | rng, [_, _], m, r => by intro h; simp [midReqs] at h
  | rng, a :: b :: c :: rest, 0, r => by
      intro h
      have h0 : (midReqs rng (a :: b :: c :: rest)).1.get? 0 =
          some ((mkMidReq rng a b c).1) := rfl
      rw [h] at h0
      exact ⟨rng, a, b, c, rfl, rfl, rfl, Option.some.inj h0⟩
  | rng, a :: b :: c :: rest, m + 1, r => by
      intro h
      have hh : (midReqs rng (a :: b :: c :: rest)).1.get? (m + 1) =
          (midReqs (mkMidReq rng a b c).2 (b :: c :: rest)).1.get? m := rfl
      rw [hh] at h
      obtain ⟨rng2, a2, b2, c2, h1, h2, h3, h4⟩ :=
        midReqs_get (mkMidReq rng a b c).2 (b :: c :: rest) m r h
      exact ⟨rng2, a2, b2, c2, h1, h2, h3, h4⟩

/-- C3 (amended): for every occupied interior cell (`1 ≤ j`, `j + 1 < W`),
the decision stage returns "no move" iff the below cell is occupied and, on
each side, the below-diagonal cell or the adjacent upper-row neighbor is
occupied.  (The claim's pure below/below-left/below-right reading is refuted
by the counterexample: an occupied same-row neighbor also blocks the
diagonal, by design of `run_physics_line`; column 0 additionally reads
shifted columns — see C1.) -/
theorem C3_no_move_iff (α : Type) (rng : Rng) (sand : List (Cell α))
    (reqs : List OReq) (rng2 : Rng) (j : Nat) (aC bC cC : Cell α)
    (hb : buildRequests rng sand = some (reqs, rng2))
    (h1 : 1 ≤ j) (h2 : j + 1 < sand.length)
    (ha : sand.get? (j - 1) = some aC) (hbc : sand.get? j = some bC)
    (hc : sand.get? (j + 1) = some cC)
    (hocc : bC.1.isSome = true) :
    reqs.get? j = some none ↔
      ((aC.2.isSome || aC.1.isSome) && bC.2.isSome &&
        (cC.2.isSome || cC.1.isSome)) = true := by
  obtain ⟨ft, lt, hf, hl, hreqs⟩ := buildRequests_some hb
  have hmlen := midReqs_length (applyDecide rng ft).2 sand
  have hj2 : j - 1 < (midReqs (applyDecide rng ft).2 sand).1.length := by omega
  have hget : reqs.get? j = (midReqs (applyDecide rng ft).2 sand).1.get? (j - 1) := by
    rw [hreqs]
    obtain ⟨j0, rfl⟩ : ∃ j0, j = j0 + 1 := ⟨j - 1, by omega⟩
    have hstep : ((applyDecide rng ft).1 :: (midReqs (applyDecide rng ft).2 sand).1 ++
        [(applyDecide (midReqs (applyDecide rng ft).2 sand).2 lt).1]).get? (j0 + 1) =
        ((midReqs (applyDecide rng ft).2 sand).1 ++
          [(applyDecide (midReqs (applyDecide rng ft).2 sand).2 lt).1]).get? j0 := rfl
    rw [hstep, List.get?_eq_getElem?, List.get?_eq_getElem?,
      List.getElem?_append_left (show j0 < _ by omega)]
    simp
  obtain ⟨rj, hrj⟩ : ∃ rj, (midReqs (applyDecide rng ft).2 sand).1.get? (j - 1) =
      some rj := by
    rw [List.get?_eq_getElem?, List.getElem?_eq_getElem hj2]
    exact ⟨_, rfl⟩
  obtain ⟨rngJ, a2, b2, c2, hA, hB, hC, hR⟩ := midReqs_get _ _ _ _ hrj
  have hj1 : j - 1 + 1 = j := by omega
  have hj3 : j - 1 + 2 = j + 1 := by omega
  rw [hj1] at hB
  rw [hj3] at hC
  have haa : a2 = aC := Option.some.inj (hA.symm.trans ha)
  have hbb : b2 = bC := Option.some.inj (hB.symm.trans hbc)
  have hcc : c2 = cC := Option.some.inj (hC.symm.trans hc)
  subst haa hbb hcc
  rw [hget, hrj, hR]
  unfold mkMidReq
  rw [if_pos hocc]
  simp only [Option.some.injEq]
  exact decide_none_iff rngJ _ _ _

/-- Closed witness for the amended C3 at a concrete input: the interior cell
in column 1 of the counterexample row pair, whose occupied upper-row left
neighbor and occupied below/below-right cells yield "no move". -/
theorem C3_no_move_iff_witness :
    buildRequests ⟨streamConst 0, 0⟩ (rowC3up.zip rowC3low) =
      some (([none, none, none, none] : List OReq), ⟨streamConst 0, 0⟩) ∧
    ([none, none, none, none] : List OReq).get? 1 = some none :=
  ⟨rfl,
    (C3_no_move_iff Nat ⟨streamConst 0, 0⟩ (rowC3up.zip rowC3low)
      ([none, none, none, none] : List OReq) ⟨streamConst 0, 0⟩ 1
      (some 0, none) (some 1, some 2) (none, some 3) rfl
      (by decide) (by decide) rfl rfl rfl rfl).mpr rfl⟩

/-- C4 (amended): one physics tick on the 5-wide board with a single grain at
`(2,0)` and an empty row below consumes exactly one random draw — the stream
position advances by one — and the grain lands at `(2,1)` unless the draw
(mod 32) selects a boundary slot of the 32-slot choice array: slot 0 sends it
to `(1,1)` and slot 31 to `(3,1)`. -/
theorem C4_single_grain_tick (s : Nat → Nat) (p : Nat) :
    run_rng_physics ⟨s, p⟩ gridC4 = some (⟨s, p + 1⟩, gridC4after (s p % 32)) := by
  by_cases h0 : s p % 32 = 0
  · simp [run_rng_physics, sweepPairs, physicsStep, run_physics_line, buildRequests,
      firstTriple, lastTriple, midReqs, mkMidReq, applyDecide, decide_direction,
      Rng.genRange32, Rng.genBool, Rng.next, resolveLoop, resolvePass, sweepAdj,
      sweepTwo, adjStep, twoStep, apply_moves, moveTarget, fire, gridC4, gridC4after,
      List.range', h0]
  · by_cases h31 : s p % 32 = 31
    · simp [run_rng_physics, sweepPairs, physicsStep, run_physics_line, buildRequests,
        firstTriple, lastTriple, midReqs, mkMidReq, applyDecide, decide_direction,
        Rng.genRange32, Rng.genBool, Rng.next, resolveLoop, resolvePass, sweepAdj,
        sweepTwo, adjStep, twoStep, apply_moves, moveTarget, fire, gridC4, gridC4after,
        List.range', h0, h31]
    · simp [run_rng_physics, sweepPairs, physicsStep, run_physics_line, buildRequests,
        firstTriple, lastTriple, midReqs, mkMidReq, applyDecide, decide_direction,
        Rng.genRange32, Rng.genBool, Rng.next, resolveLoop, resolvePass, sweepAdj,
        sweepTwo, adjStep, twoStep, apply_moves, moveTarget, fire, gridC4, gridC4after,
        List.range', h0, h31]

/-- Closed witness for the amended C4 at a concrete random stream. -/
theorem C4_single_grain_tick_witness :
    run_rng_physics ⟨streamConst 5, 0⟩ gridC4 =
      some (⟨streamConst 5, 1⟩, gridC4after (streamConst 5 0 % 32)) :=
  C4_single_grain_tick (streamConst 5) 0

end Sandtris
